import Mathlib

/-!
Verification development for the `debugterm` terminal-output decoder.

Byte buffers are modelled as `List Nat` (each element a byte value 0..255);
Go strings and byte slices both become such lists.  The Go functions of the
decoder are translated one-for-one; index-based loops over `data[i:]` become
functions over the suffix list starting at the loop index, and Go functions
that can only recurse with a strictly advancing index are given an explicit
fuel argument (always instantiated with the input length by the wrapper, which
is sufficient because every step consumes at least one byte — proved below).
-/

namespace DebugTerm

/-- Bytes of an ASCII string literal (every literal taken from the source is
ASCII, so `Char.toNat` equals the UTF-8 byte). -/
def ascii (s : String) : List Nat := s.data.map Char.toNat

/-- Join a list of byte lists. -/
def listJoin : List (List Nat) → List Nat
  | [] => []
  | x :: r => x ++ listJoin r

/-- `isDebugTermC0Control` from the source: `b < 0x20 || b == 0x7f`. -/
def isDebugTermC0Control (b : Nat) : Bool := b < 0x20 || b == 0x7f

/-- ASCII decimal digit test (`strconv` digit bytes). -/
def isDigitByte (b : Nat) : Bool := 48 ≤ b && b ≤ 57

/-- Lowercase hex digit byte for a nibble, as Go's `%x` formatting. -/
def lowerHexDigit (n : Nat) : Nat := if n < 10 then 48 + n else 87 + n

/-- Two lowercase hex digits of a byte (Go `%02x`). -/
def hex2 (b : Nat) : List Nat := [lowerHexDigit (b / 16 % 16), lowerHexDigit (b % 16)]

/-- Four lowercase hex digits (Go `%04x`, used by `strconv` escaping). -/
def hex4 (n : Nat) : List Nat :=
  [lowerHexDigit (n / 4096 % 16), lowerHexDigit (n / 256 % 16),
   lowerHexDigit (n / 16 % 16), lowerHexDigit (n % 16)]

/-- Eight lowercase hex digits (Go `%08x`). -/
def hex8 (n : Nat) : List Nat := hex4 (n / 65536) ++ hex4 (n % 65536)

/-- Decimal digits of a positive number below the fuel bound, most
significant first (`n` itself always suffices as fuel since `n / 10 < n`). -/
def natDecGo : Nat → Nat → List Nat
  | _, 0 => []
  | 0, _ => []
  | fuel + 1, n => natDecGo fuel (n / 10) ++ [48 + n % 10]

/-- Decimal rendering of a natural number (Go `%d` / `strconv.Itoa` on a
non-negative value). -/
def natDec (n : Nat) : List Nat := if n = 0 then [48] else natDecGo n n

/-- Decimal rendering of an integer with sign (Go `%d` on `int`). -/
def intDec (n : Int) : List Nat :=
  if n < 0 then 45 :: natDec n.natAbs else natDec n.toNat

/-- Go `utf8.DecodeRune` on the byte suffix: returns the decoded code point
and its size.  An invalid or incomplete encoding yields `(0xFFFD, 1)`
(`RuneError` with size 1), exactly as the Go accept-range tables do. -/
def utf8Decode (l : List Nat) : Nat × Nat :=
  match l with
  | [] => (0xFFFD, 0)
  | b0 :: rest =>
    if b0 < 0x80 then (b0, 1)
    else if b0 < 0xC2 then (0xFFFD, 1)
    else if b0 ≤ 0xDF then
      match rest with
      | b1 :: _ =>
        if 0x80 ≤ b1 && b1 ≤ 0xBF then ((b0 - 0xC0) * 64 + (b1 - 0x80), 2)
        else (0xFFFD, 1)
      | _ => (0xFFFD, 1)
    else if b0 ≤ 0xEF then
      match rest with
      | b1 :: b2 :: _ =>
        let lo := if b0 = 0xE0 then 0xA0 else 0x80
        let hi := if b0 = 0xED then 0x9F else 0xBF
        if lo ≤ b1 && b1 ≤ hi && 0x80 ≤ b2 && b2 ≤ 0xBF then
          ((b0 - 0xE0) * 4096 + (b1 - 0x80) * 64 + (b2 - 0x80), 3)
        else (0xFFFD, 1)
      | _ => (0xFFFD, 1)
    else if b0 ≤ 0xF4 then
      match rest with
      | b1 :: b2 :: b3 :: _ =>
        let lo := if b0 = 0xF0 then 0x90 else 0x80
        let hi := if b0 = 0xF4 then 0x8F else 0xBF
        if lo ≤ b1 && b1 ≤ hi && 0x80 ≤ b2 && b2 ≤ 0xBF && 0x80 ≤ b3 && b3 ≤ 0xBF then
          ((b0 - 0xF0) * 262144 + (b1 - 0x80) * 4096 + (b2 - 0x80) * 64 + (b3 - 0x80), 4)
        else (0xFFFD, 1)
      | _ => (0xFFFD, 1)
    else (0xFFFD, 1)

/-- Go `utf8.AppendRune`: UTF-8 bytes of a valid code point. -/
def utf8Encode (r : Nat) : List Nat :=
  if r < 0x80 then [r]
  else if r < 0x800 then [0xC0 + r / 64, 0x80 + r % 64]
  else if r < 0x10000 then [0xE0 + r / 4096, 0x80 + r / 64 % 64, 0x80 + r % 64]
  else [0xF0 + r / 262144, 0x80 + r / 4096 % 64, 0x80 + r / 64 % 64, 0x80 + r % 64]

/-- The scan of `consumeDebugTermCSI` from index `start+2`: consume up to and
including the first byte in `[0x40, 0x7e]`; the second component is the
unconsumed remainder (empty when no final byte exists). -/
def csiScan : List Nat → List Nat × List Nat
  | [] => ([], [])
  | b :: r =>
    if 0x40 ≤ b && b ≤ 0x7e then ([b], r)
    else
      let p := csiScan r
      (b :: p.1, p.2)

/-- `consumeDebugTermCSI` on the suffix `data[start:]` (which always begins
with `ESC [` at its call sites): returns the raw span and the remainder
(`data[end:]`). -/
def consumeDebugTermCSI (l : List Nat) : List Nat × List Nat :=
  match l with
  | a :: b :: t =>
    let p := csiScan t
    (a :: b :: p.1, p.2)
  | _ => (l, [])

/-- The scan of `consumeDebugTermOSC` from index `start+2`: consume through
the first BEL (inclusive) or the first `ESC '\'` pair (inclusive); a lone
trailing ESC is consumed like an ordinary byte, exactly as in the Go loop. -/
def oscScan : List Nat → List Nat × List Nat
  | [] => ([], [])
  | b :: r =>
    if b == 0x07 then ([b], r)
    else
      match r with
      | b2 :: r2 =>
        if b == 0x1b && b2 == 0x5c then ([b, b2], r2)
        else
          let p := oscScan (b2 :: r2)
          (b :: p.1, p.2)
      | [] => ([b], [])

/-- `consumeDebugTermOSC` on the suffix `data[start:]`. -/
def consumeDebugTermOSC (l : List Nat) : List Nat × List Nat :=
  match l with
  | a :: b :: t =>
    let p := oscScan t
    (a :: b :: p.1, p.2)
  | _ => (l, [])

/-- The scan of `consumeDebugTermST` from index `start+2`: consume through the
first `ESC '\'` pair only. -/
def stScan : List Nat → List Nat × List Nat
  | [] => ([], [])
  | b :: r =>
    match r with
    | b2 :: r2 =>
      if b == 0x1b && b2 == 0x5c then ([b, b2], r2)
      else
        let p := stScan (b2 :: r2)
        (b :: p.1, p.2)
    | [] => ([b], [])

/-- `consumeDebugTermST` on the suffix `data[start:]`. -/
def consumeDebugTermST (l : List Nat) : List Nat × List Nat :=
  match l with
  | a :: b :: t =>
    let p := stScan t
    (a :: b :: p.1, p.2)
  | _ => (l, [])

/-- The loop body of `consumeDebugTermText`, with explicit fuel (the wrapper
passes the input length, which suffices because every iteration consumes at
least one byte).  Returns the consumed text-run bytes and the remainder. -/
def consumeTextGo : Nat → List Nat → List Nat × List Nat
  | 0, l => ([], l)
  | _ + 1, [] => ([], [])
  | fuel + 1, b :: rest =>
    if b == 0x1b || b == 0x07 then ([], b :: rest)
    else if b == 10 || b == 13 || b == 9 then
      let p := consumeTextGo fuel rest
      (b :: p.1, p.2)
    else if isDebugTermC0Control b then ([], b :: rest)
    else if b < 0x80 then
      let p := consumeTextGo fuel rest
      (b :: p.1, p.2)
    else
      let sz := (utf8Decode (b :: rest)).2
      if sz == 1 then ([], b :: rest)
      else
        let p := consumeTextGo fuel (rest.drop (sz - 1))
        (b :: (rest.take (sz - 1) ++ p.1), p.2)

/-- `consumeDebugTermText` on the suffix `data[i:]`: the consumed run
(`data[start:end]`) and the remainder (`data[end:]`). -/
def consumeDebugTermText (l : List Nat) : List Nat × List Nat :=
  consumeTextGo l.length l

theorem csiScan_append : ∀ l : List Nat, (csiScan l).1 ++ (csiScan l).2 = l := by
  intro l
  induction l with
  | nil => rfl
  | cons b r ih =>
    by_cases h : (0x40 ≤ b && b ≤ 0x7e) = true
    · simp [csiScan, h]
    · simp [csiScan, h, ih]

theorem oscScan_append : ∀ l : List Nat, (oscScan l).1 ++ (oscScan l).2 = l := by
  intro l
  induction l with
  | nil => rfl
  | cons b r ih =>
    match r with
    | [] =>
      simp only [oscScan]
      split <;> rfl
    | b2 :: r2 =>
      simp only [oscScan]
      split
      · rfl
      · split
        · rename_i hb
          simp only [Bool.and_eq_true, beq_iff_eq] at hb
          simp [hb]
        · simpa using ih

theorem stScan_append : ∀ l : List Nat, (stScan l).1 ++ (stScan l).2 = l := by
  intro l
  induction l with
  | nil => rfl
  | cons b r ih =>
    match r with
    | [] => rfl
    | b2 :: r2 =>
      simp only [stScan]
      split
      · rename_i hb
        simp only [Bool.and_eq_true, beq_iff_eq] at hb
        simp [hb]
      · simpa using ih

theorem consumeDebugTermCSI_append (l : List Nat) :
    (consumeDebugTermCSI l).1 ++ (consumeDebugTermCSI l).2 = l := by
  match l with
  | [] => rfl
  | [a] => rfl
  | a :: b :: t => simp [consumeDebugTermCSI, csiScan_append]

theorem consumeDebugTermOSC_append (l : List Nat) :
    (consumeDebugTermOSC l).1 ++ (consumeDebugTermOSC l).2 = l := by
  match l with
  | [] => rfl
  | [a] => rfl
  | a :: b :: t => simp [consumeDebugTermOSC, oscScan_append]

theorem consumeDebugTermST_append (l : List Nat) :
    (consumeDebugTermST l).1 ++ (consumeDebugTermST l).2 = l := by
  match l with
  | [] => rfl
  | [a] => rfl
  | a :: b :: t => simp [consumeDebugTermST, stScan_append]

theorem consumeTextGo_append : ∀ (fuel : Nat) (l : List Nat),
    (consumeTextGo fuel l).1 ++ (consumeTextGo fuel l).2 = l := by
  intro fuel
  induction fuel with
  | zero => intro l; rfl
  | succ n ih =>
    intro l
    match l with
    | [] => rfl
    | b :: rest =>
      simp only [consumeTextGo]
      split
      · rfl
      · split
        · simpa using ih rest
        · split
          · rfl
          · split
            · simpa using ih rest
            · split
              · rfl
              · have h := ih (rest.drop ((utf8Decode (b :: rest)).2 - 1))
                simp only [List.cons_append, List.append_assoc, h]
                simp [List.take_append_drop]

theorem consumeDebugTermText_append (l : List Nat) :
    (consumeDebugTermText l).1 ++ (consumeDebugTermText l).2 = l :=
  consumeTextGo_append l.length l

/-! ## Quoting (Go `strconv.Quote` / `strconv.QuoteToASCII`) -/

/-- `strconv.IsPrint`.  Exact for the ASCII range (`0x20..0x7e`).  For
non-ASCII code points Go consults its Unicode range tables; those tables are
approximated here as: printable iff not a C1 control and not the line and
paragraph separators U+2028/U+2029.  Only `strconv.Quote` on TXT segments
reaches the non-ASCII side (`strconv.QuoteToASCII` never consults it), and no
theorem below depends on that side. -/
def goIsPrint (r : Nat) : Bool :=
  if r < 0x80 then 0x20 ≤ r && r ≤ 0x7e
  else !(r ≤ 0x9f || r == 0x2028 || r == 0x2029)

/-- Go `strconv.appendEscapedRune` on a valid decoded code point (decoded
runes are always valid scalar values, so the `!utf8.ValidRune` branch of the
Go source is unreachable and omitted). -/
def escRune (asciiOnly : Bool) (r : Nat) : List Nat :=
  if r == 34 || r == 92 then [92, r]
  else if asciiOnly && (0x20 ≤ r && r ≤ 0x7e) then [r]
  else if !asciiOnly && goIsPrint r then utf8Encode r
  else if r == 7 then ascii "\\a"
  else if r == 8 then ascii "\\b"
  else if r == 12 then ascii "\\f"
  else if r == 10 then ascii "\\n"
  else if r == 13 then ascii "\\r"
  else if r == 9 then ascii "\\t"
  else if r == 11 then ascii "\\v"
  else if r < 0x20 || r == 0x7f then ascii "\\x" ++ hex2 r
  else if r < 0x10000 then ascii "\\u" ++ hex4 r
  else ascii "\\U" ++ hex8 r

/-- The rune loop of Go `strconv.quoteWith`, with explicit fuel (the wrapper
passes the input length; every iteration consumes at least one byte).  A byte
at which UTF-8 decoding fails (width 1 with a first byte `>= 0x80`) is emitted
as a `\x` escape of that single byte. -/
def quoteLoopGo (asciiOnly : Bool) : Nat → List Nat → List Nat
  | 0, _ => []
  | _ + 1, [] => []
  | fuel + 1, b :: rest =>
    let p := utf8Decode (b :: rest)
    if 0x80 ≤ b && p.2 == 1 then
      ascii "\\x" ++ hex2 b ++ quoteLoopGo asciiOnly fuel rest
    else
      escRune asciiOnly p.1 ++ quoteLoopGo asciiOnly fuel (rest.drop (p.2 - 1))

/-- Go `strconv.Quote`. -/
def goQuote (l : List Nat) : List Nat := 34 :: quoteLoopGo false l.length l ++ [34]

/-- Go `strconv.QuoteToASCII`. -/
def goQuoteToASCII (l : List Nat) : List Nat := 34 :: quoteLoopGo true l.length l ++ [34]

/-! ## Lookup tables -/

/-- `csiCommandDescriptions` from the source (Go map, modelled as an
association list with distinct keys; `byte` keys are the ASCII codes of the
final bytes). -/
def csiCommandDescriptions : List (Nat × List Nat) :=
  [(64, ascii "insert character"), (65, ascii "cursor up"), (66, ascii "cursor down"),
   (67, ascii "cursor forward"), (68, ascii "cursor back"), (69, ascii "cursor next line"),
   (70, ascii "cursor prev line"), (71, ascii "cursor horizontal absolute"),
   (72, ascii "cursor position"), (73, ascii "cursor horizontal tab"),
   (74, ascii "erase display"), (75, ascii "erase line"), (76, ascii "insert line"),
   (77, ascii "delete line"), (80, ascii "delete character"), (83, ascii "scroll up"),
   (84, ascii "scroll down"), (88, ascii "erase character"), (90, ascii "cursor backward tab"),
   (97, ascii "cursor horizontal relative"), (98, ascii "repeat character"),
   (99, ascii "device attributes"), (100, ascii "cursor vertical absolute"),
   (101, ascii "cursor vertical relative"), (102, ascii "horizontal vertical position"),
   (103, ascii "tab clear"), (104, ascii "set mode"), (108, ascii "reset mode"),
   (109, ascii "SGR"), (110, ascii "device status report"),
   (114, ascii "set scrolling region"), (115, ascii "save cursor"),
   (117, ascii "restore cursor")]

/-- `decModeDescriptions` from the source (keys are the mode digit strings). -/
def decModeDescriptions : List (List Nat × List Nat) :=
  [(ascii "1", ascii "application cursor keys"), (ascii "3", ascii "132 column mode"),
   (ascii "6", ascii "origin mode"), (ascii "7", ascii "auto wrap"),
   (ascii "12", ascii "blinking cursor"), (ascii "25", ascii "show cursor"),
   (ascii "47", ascii "alternate screen"), (ascii "1000", ascii "mouse X10 tracking"),
   (ascii "1002", ascii "mouse button events"), (ascii "1003", ascii "mouse all events"),
   (ascii "1004", ascii "focus events"), (ascii "1006", ascii "SGR mouse mode"),
   (ascii "1049", ascii "alt screen + save cursor"), (ascii "2004", ascii "bracketed paste"),
   (ascii "2026", ascii "synchronized output")]

/-- `sgrSingleDescriptions` from the source (`int` keys). -/
def sgrSingleDescriptions : List (Int × List Nat) :=
  [(0, ascii "reset all"), (1, ascii "bold"), (2, ascii "dim"), (3, ascii "italic"),
   (4, ascii "underline"), (5, ascii "blink"), (7, ascii "reverse"), (8, ascii "hidden"),
   (9, ascii "strikethrough"), (21, ascii "doubly underlined"), (22, ascii "normal intensity"),
   (23, ascii "not italic"), (24, ascii "not underlined"), (25, ascii "not blinking"),
   (27, ascii "not reversed"), (28, ascii "not hidden"), (29, ascii "not strikethrough"),
   (39, ascii "default fg"), (49, ascii "default bg")]

/-! ## Numeric parsing (Go `strconv.Atoi`) -/

/-- Go `strconv.Atoi`: optional single leading sign, then one or more decimal
digits and nothing else; values outside the 64-bit `int` range are a range
error (`none`). -/
def goAtoi (s : List Nat) : Option Int :=
  match s with
  | [] => none
  | _ =>
    let neg := s.head? == some 45
    let ds := if s.head? == some 45 || s.head? == some 43 then s.tail else s
    if ds.isEmpty || !(ds.all isDigitByte) then none
    else
      let m : Nat := ds.foldl (fun acc b => acc * 10 + (b - 48)) 0
      let v : Int := if neg then -(m : Int) else (m : Int)
      if v < -(2 ^ 63) || 2 ^ 63 - 1 < v then none else some v

/-- `parseCursorForwardN` from the source: recognise a CSI cursor-forward
shorthand span and give its count (`none` stands for Go's `(0, false)`). -/
def parseCursorForwardN (seq : List Nat) : Option Nat :=
  if seq.length < 3 || seq.getLast? != some 0x43 then none
  else
    let params := (seq.drop 2).dropLast
    if params.isEmpty then some 1
    else
      match goAtoi params with
      | none => none
      | some n => if n ≤ 0 then none else some n.toNat

/-! ## The SGR describer -/

/-- Go `strings.Split` on `';'` (never returns an empty list). -/
def splitSemi : List Nat → List (List Nat)
  | [] => [[]]
  | b :: r =>
    if b == 0x3b then [] :: splitSemi r
    else
      match splitSemi r with
      | p :: ps => (b :: p) :: ps
      | [] => [[b]]

/-- The single-numeric-parameter tail of `describeSGR` (the part of the source
after the `len(parts) != 1` early return). -/
def describeSGRSingle (p0 : List Nat) : List Nat :=
  match goAtoi p0 with
  | none => []
  | some n =>
    match List.lookup n sgrSingleDescriptions with
    | some d => d
    | none =>
      if 30 ≤ n ∧ n ≤ 37 then ascii "fg ansi color " ++ intDec (n - 30)
      else if 40 ≤ n ∧ n ≤ 47 then ascii "bg ansi color " ++ intDec (n - 40)
      else if 90 ≤ n ∧ n ≤ 97 then ascii "fg bright color " ++ intDec (n - 90)
      else if 100 ≤ n ∧ n ≤ 107 then ascii "bg bright color " ++ intDec (n - 100)
      else []

/-- `describeSGR` from the source. -/
def describeSGR (params : List Nat) : List Nat :=
  if params = [] then ascii "reset all"
  else
    let parts := splitSemi params
    if 5 ≤ parts.length ∧ parts.getD 0 [] = ascii "38" ∧ parts.getD 1 [] = ascii "2" then
      ascii "fg rgb(" ++ parts.getD 2 [] ++ [44] ++ parts.getD 3 [] ++ [44] ++ parts.getD 4 [] ++ [41]
    else if 5 ≤ parts.length ∧ parts.getD 0 [] = ascii "48" ∧ parts.getD 1 [] = ascii "2" then
      ascii "bg rgb(" ++ parts.getD 2 [] ++ [44] ++ parts.getD 3 [] ++ [44] ++ parts.getD 4 [] ++ [41]
    else if parts.length = 3 ∧ parts.getD 0 [] = ascii "38" ∧ parts.getD 1 [] = ascii "5" then
      ascii "fg color256(" ++ parts.getD 2 [] ++ [41]
    else if parts.length = 3 ∧ parts.getD 0 [] = ascii "48" ∧ parts.getD 1 [] = ascii "5" then
      ascii "bg color256(" ++ parts.getD 2 [] ++ [41]
    else if parts.length ≠ 1 then []
    else describeSGRSingle (parts.getD 0 [])

/-! ## Line formatters -/

/-- `formatDebugTermCSILine` from the source. -/
def formatDebugTermCSILine (seq : List Nat) : List Nat :=
  if seq.length < 3 then ascii "CSI " ++ goQuoteToASCII seq
  else
    let inner := seq.drop 2
    let finalByte := inner.getLastD 0
    let params := inner.dropLast
    if params.head? == some 0x3f && (finalByte == 0x68 || finalByte == 0x6c) then
      let modeStr := params.tail
      let line :=
        (if finalByte == 0x68 then ascii "DEC SET " else ascii "DEC RST ") ++ modeStr
      match List.lookup modeStr decModeDescriptions with
      | some d => line ++ ascii " // " ++ d
      | none => line
    else
      let line := ascii "CSI " ++ [finalByte] ++ (if params.isEmpty then [] else 0x20 :: params)
      if finalByte == 0x6d then
        let d := describeSGR params
        if d.isEmpty then line else line ++ ascii " // " ++ d
      else
        match List.lookup finalByte csiCommandDescriptions with
        | some d => line ++ ascii " // " ++ d
        | none => line

/-- Go `strings.TrimSuffix` (drop one occurrence of the suffix if present). -/
def trimOneSuffix (l suf : List Nat) : List Nat :=
  if suf.isSuffixOf l then l.take (l.length - suf.length) else l

/-- Split a byte list at the first `';'` (Go `strings.IndexByte` plus the two
slicings in the source; `none` when no semicolon occurs). -/
def splitFirstSemi : List Nat → Option (List Nat × List Nat)
  | [] => none
  | b :: r =>
    if b == 0x3b then some ([], r)
    else
      match splitFirstSemi r with
      | some p => some (b :: p.1, p.2)
      | none => none

/-- `formatDebugTermOSCLine` from the source. -/
def formatDebugTermOSCLine (seq : List Nat) : List Nat :=
  if seq.length < 3 then ascii "OSC " ++ goQuoteToASCII seq
  else
    let inner := trimOneSuffix (seq.drop 2) [0x07]
    let inner2 := trimOneSuffix inner [0x1b, 0x5c]
    match splitFirstSemi inner2 with
    | some p => ascii "OSC " ++ p.1 ++ [0x20] ++ goQuoteToASCII p.2
    | none => ascii "OSC " ++ goQuoteToASCII inner2

/-! ## CR/LF segmentation (`splitOnCRLFRuns`) -/

/-- A carriage-return or line-feed byte. -/
def isCRLFByte (b : Nat) : Bool := b == 13 || b == 10

/-- The first inner loop of `splitOnCRLFRuns`: split at the first CR/LF byte
(first component CR/LF-free; second component starts with the first CR/LF byte
or is empty). -/
def breakCRLF : List Nat → List Nat × List Nat
  | [] => ([], [])
  | b :: r =>
    if isCRLFByte b then ([], b :: r)
    else
      let p := breakCRLF r
      (b :: p.1, p.2)

/-- The second inner loop of `splitOnCRLFRuns`: consume the maximal CR/LF run
at the front. -/
def takeCRLFRun : List Nat → List Nat × List Nat
  | [] => ([], [])
  | b :: r =>
    if isCRLFByte b then
      let p := takeCRLFRun r
      (b :: p.1, p.2)
    else ([], b :: r)

/-- The outer loop of `splitOnCRLFRuns`, with explicit fuel (the wrapper
passes the input length; every iteration consumes the nonempty prefix
`pre ++ run`). -/
def splitCRLFGo : Nat → List Nat → List (List Nat)
  | 0, _ => []
  | fuel + 1, s =>
    if s = [] then []
    else
      let rest := (breakCRLF s).2
      if rest = [] then [s]
      else ((breakCRLF s).1 ++ (takeCRLFRun rest).1) :: splitCRLFGo fuel (takeCRLFRun rest).2

/-- `splitOnCRLFRuns` from the source: split at the end of each run of `\r`
and `\n` characters; each segment keeps its trailing run, and the last segment
may have none. -/
def splitOnCRLFRuns (s : List Nat) : List (List Nat) := splitCRLFGo s.length s

theorem breakCRLF_append (l : List Nat) : (breakCRLF l).1 ++ (breakCRLF l).2 = l := by
  induction l with
  | nil => rfl
  | cons b r ih =>
    simp only [breakCRLF]
    split
    · rfl
    · simpa using ih

theorem takeCRLFRun_append (l : List Nat) : (takeCRLFRun l).1 ++ (takeCRLFRun l).2 = l := by
  induction l with
  | nil => rfl
  | cons b r ih =>
    simp only [takeCRLFRun]
    split
    · simpa using ih
    · rfl

theorem breakCRLF_fst_no_crlf (l : List Nat) :
    ∀ b ∈ (breakCRLF l).1, isCRLFByte b = false := by
  induction l with
  | nil => intro b hb; simp [breakCRLF] at hb
  | cons x r ih =>
    intro b hb
    simp only [breakCRLF] at hb
    split at hb
    · simp at hb
    · rename_i hx
      simp only [List.mem_cons] at hb
      rcases hb with rfl | hb
      · simpa using hx
      · exact ih b hb

theorem breakCRLF_snd_head (l : List Nat) :
    ∀ b t, (breakCRLF l).2 = b :: t → isCRLFByte b = true := by
  induction l with
  | nil => intro b t h; simp [breakCRLF] at h
  | cons x r ih =>
    intro b t h
    simp only [breakCRLF] at h
    split at h
    · rename_i hx
      injection h with h1 h2
      exact h1 ▸ hx
    · exact ih b t (by simpa using h)

theorem takeCRLFRun_fst_ne (b : Nat) (t : List Nat) (h : isCRLFByte b = true) :
    (takeCRLFRun (b :: t)).1 ≠ [] := by
  simp [takeCRLFRun, h]

theorem takeCRLFRun_snd_head (l : List Nat) :
    ∀ b t, (takeCRLFRun l).2 = b :: t → isCRLFByte b = false := by
  induction l with
  | nil => intro b t h; simp [takeCRLFRun] at h
  | cons x r ih =>
    intro b t h
    simp only [takeCRLFRun] at h
    split at h
    · exact ih b t (by simpa using h)
    · rename_i hx
      injection h with h1 h2
      subst h1
      simpa using hx

/-! ## The token stream (the inline scanner of `formatDebugTermDecode`) -/

/-- Token classification of the scanner inlined in `formatDebugTermDecode`.
Each token carries the exact raw byte span it consumed. -/
inductive DTok where
  | text (s : List Nat)
  | ctl (b : Nat)
  | bell
  | esc (s : List Nat)
  | csi (s : List Nat)
  | osc (s : List Nat)
  | dcs (s : List Nat)
  | pm (s : List Nat)
  | apc (s : List Nat)
deriving DecidableEq

/-- The raw byte span a token consumed. -/
def DTok.raw : DTok → List Nat
  | .text s => s
  | .ctl b => [b]
  | .bell => [7]
  | .esc s => s
  | .csi s => s
  | .osc s => s
  | .dcs s => s
  | .pm s => s
  | .apc s => s

/-- One iteration of the scan loop of `formatDebugTermDecode`: classify the
token starting at the head of the suffix and return it with the unconsumed
remainder.  (The `[]` arm is an unreachable guard; all callers pass a
nonempty suffix.) -/
def scanStep (l : List Nat) : DTok × List Nat :=
  match l with
  | [] => (.bell, [])
  | b :: rest =>
    if b == 0x1b then
      match rest with
      | [] => (.esc [b], [])
      | next :: r2 =>
        if next == 0x5b then
          let p := consumeDebugTermCSI (b :: rest)
          (.csi p.1, p.2)
        else if next == 0x5d then
          let p := consumeDebugTermOSC (b :: rest)
          (.osc p.1, p.2)
        else if next == 0x50 then
          let p := consumeDebugTermST (b :: rest)
          (.dcs p.1, p.2)
        else if next == 0x5e then
          let p := consumeDebugTermST (b :: rest)
          (.pm p.1, p.2)
        else if next == 0x5f then
          let p := consumeDebugTermST (b :: rest)
          (.apc p.1, p.2)
        else (.esc [b, next], r2)
    else if b == 0x07 then (.bell, rest)
    else
      let p := consumeDebugTermText (b :: rest)
      if p.1 = [] then (.ctl b, rest) else (.text p.1, p.2)

theorem scanStep_spec (l : List Nat) (h : l ≠ []) :
    (scanStep l).1.raw ++ (scanStep l).2 = l ∧ (scanStep l).1.raw ≠ [] := by
  match l with
  | b :: rest =>
    by_cases hb : b = 0x1b
    · subst hb
      match rest with
      | [] => simp [scanStep, DTok.raw]
      | next :: r2 =>
        by_cases h1 : next = 0x5b
        · subst h1
          simp only [scanStep, beq_self_eq_true, if_true]
          refine ⟨?_, by simp [consumeDebugTermCSI, DTok.raw]⟩
          simpa [consumeDebugTermCSI, DTok.raw] using csiScan_append r2
        · by_cases h2 : next = 0x5d
          · subst h2
            simp only [scanStep, beq_self_eq_true, if_true]
            refine ⟨?_, by simp [consumeDebugTermOSC, DTok.raw]⟩
            simpa [consumeDebugTermOSC, DTok.raw] using oscScan_append r2
          · by_cases h3 : next = 0x50
            · subst h3
              simp only [scanStep, beq_self_eq_true, if_true]
              refine ⟨?_, by simp [consumeDebugTermST, DTok.raw]⟩
              simpa [consumeDebugTermST, DTok.raw] using stScan_append r2
            · by_cases h4 : next = 0x5e
              · subst h4
                simp only [scanStep, beq_self_eq_true, if_true]
                refine ⟨?_, by simp [consumeDebugTermST, DTok.raw]⟩
                simpa [consumeDebugTermST, DTok.raw] using stScan_append r2
              · by_cases h5 : next = 0x5f
                · subst h5
                  simp only [scanStep, beq_self_eq_true, if_true]
                  refine ⟨?_, by simp [consumeDebugTermST, DTok.raw]⟩
                  simpa [consumeDebugTermST, DTok.raw] using stScan_append r2
                · simp [scanStep, h1, h2, h3, h4, h5, DTok.raw]
    · by_cases h7 : b = 0x07
      · subst h7; simp [scanStep, DTok.raw]
      · by_cases ht : (consumeDebugTermText (b :: rest)).1 = []
        · simp [scanStep, hb, h7, ht, DTok.raw]
        · have := consumeDebugTermText_append (b :: rest)
          simp only [scanStep, hb, h7, ht]
          simp only [beq_iff_eq, hb, h7, if_false]
          simp [ht, DTok.raw, this]

theorem scanStep_snd_lt (l : List Nat) (h : l ≠ []) :
    (scanStep l).2.length < l.length := by
  obtain ⟨happ, hne⟩ := scanStep_spec l h
  have := congrArg List.length happ
  simp only [List.length_append] at this
  have hpos : 0 < (scanStep l).1.raw.length := List.length_pos.mpr hne
  omega

/-- The token stream of the scan loop, with explicit fuel (the wrapper passes
the buffer length; every step consumes at least one byte). -/
def scanTokensGo : Nat → List Nat → List DTok
  | 0, _ => []
  | fuel + 1, l =>
    if l = [] then [] else (scanStep l).1 :: scanTokensGo fuel (scanStep l).2

/-- The full token stream of a buffer. -/
def scanTokens (l : List Nat) : List DTok := scanTokensGo l.length l

theorem scanTokensGo_raw_join : ∀ (fuel : Nat) (l : List Nat), l.length ≤ fuel →
    listJoin ((scanTokensGo fuel l).map DTok.raw) = l := by
  intro fuel
  induction fuel with
  | zero =>
    intro l hl
    have : l = [] := List.length_eq_zero.mp (Nat.le_zero.mp hl)
    subst this; rfl
  | succ n ih =>
    intro l hl
    by_cases h : l = []
    · subst h; rfl
    · obtain ⟨happ, hne⟩ := scanStep_spec l h
      have hlt := scanStep_snd_lt l h
      simp only [scanTokensGo, h, if_false, List.map_cons, listJoin]
      rw [ih (scanStep l).2 (by omega)]
      exact happ

/-! ## The text coalescer and the decode driver -/

/-- The mutable state of the decode loop (`lines`, `textBuf`,
`totalCSpaces`). -/
structure DecState where
  lines : List (List Nat)
  textBuf : List Nat
  totalCSpaces : Nat
deriving DecidableEq

/-- The segment-emission loop inside `flushText`: one `TXT` line per segment;
the last segment gets the `// <count>C` annotation when the count is positive. -/
def emitSegs : List (List Nat) → Nat → List (List Nat)
  | [], _ => []
  | [s], c =>
    if 0 < c then
      [ascii "TXT " ++ goQuote s ++ ascii " // " ++ natDec c ++ ascii "C"]
    else [ascii "TXT " ++ goQuote s]
  | s :: r, c => (ascii "TXT " ++ goQuote s) :: emitSegs r c

/-- `flushText` from the source: no-op on empty state, otherwise emit the
CR/LF-split segments of `textBuf` and reset the accumulator. -/
def flushText (st : DecState) : DecState :=
  if st.textBuf = [] ∧ st.totalCSpaces = 0 then st
  else
    let segs0 := splitOnCRLFRuns st.textBuf
    let segs := if segs0 = [] then [st.textBuf] else segs0
    ⟨st.lines ++ emitSegs segs st.totalCSpaces, [], 0⟩

/-- The per-token effect of the decode loop body on the loop state. -/
def applyTok (t : DTok) (st : DecState) : DecState :=
  match t with
  | .text s => ⟨st.lines, st.textBuf ++ s, st.totalCSpaces⟩
  | .csi seq =>
    match parseCursorForwardN seq with
    | some n => ⟨st.lines, st.textBuf ++ List.replicate n 0x20, st.totalCSpaces + n⟩
    | none =>
      let st2 := flushText st
      ⟨st2.lines ++ [formatDebugTermCSILine seq], st2.textBuf, st2.totalCSpaces⟩
  | .osc seq =>
    let st2 := flushText st
    ⟨st2.lines ++ [formatDebugTermOSCLine seq], st2.textBuf, st2.totalCSpaces⟩
  | .dcs seq =>
    let st2 := flushText st
    ⟨st2.lines ++ [ascii "DCS " ++ goQuoteToASCII seq], st2.textBuf, st2.totalCSpaces⟩
  | .pm seq =>
    let st2 := flushText st
    ⟨st2.lines ++ [ascii "PM " ++ goQuoteToASCII seq], st2.textBuf, st2.totalCSpaces⟩
  | .apc seq =>
    let st2 := flushText st
    ⟨st2.lines ++ [ascii "APC " ++ goQuoteToASCII seq], st2.textBuf, st2.totalCSpaces⟩
  | .esc s =>
    let st2 := flushText st
    let line := if s.length = 1 then ascii "ESC" else ascii "ESC " ++ goQuoteToASCII s
    ⟨st2.lines ++ [line], st2.textBuf, st2.totalCSpaces⟩
  | .bell =>
    let st2 := flushText st
    ⟨st2.lines ++ [ascii "BEL"], st2.textBuf, st2.totalCSpaces⟩
  | .ctl b =>
    let st2 := flushText st
    ⟨st2.lines ++ [ascii "CTL 0x" ++ hex2 b], st2.textBuf, st2.totalCSpaces⟩

/-- The scan loop of `formatDebugTermDecode`, with explicit fuel (the wrapper
passes the buffer length; every iteration strictly advances). -/
def decodeLoopGo : Nat → List Nat → DecState → DecState
  | 0, _, st => st
  | fuel + 1, l, st =>
    if l = [] then st
    else decodeLoopGo fuel (scanStep l).2 (applyTok (scanStep l).1 st)

/-- `formatDebugTermDecode` from the source: run the scan loop from the empty
accumulator, flush, and join the lines with newlines (empty input gives the
empty report). -/
def formatDebugTermDecode (data : List Nat) : List Nat :=
  if data = [] then []
  else
    let st := flushText (decodeLoopGo data.length data ⟨[], [], 0⟩)
    List.intercalate [10] st.lines ++ [10]

theorem decodeLoopGo_nil (fuel : Nat) (st : DecState) : decodeLoopGo fuel [] st = st := by
  cases fuel <;> rfl

theorem decodeLoopGo_fuel : ∀ (f1 f2 : Nat) (l : List Nat) (st : DecState),
    l.length ≤ f1 → l.length ≤ f2 → decodeLoopGo f1 l st = decodeLoopGo f2 l st := by
  intro f1
  induction f1 with
  | zero =>
    intro f2 l st h1 _
    have : l = [] := List.length_eq_zero.mp (Nat.le_zero.mp h1)
    subst this
    rw [decodeLoopGo_nil, decodeLoopGo_nil]
  | succ n ih =>
    intro f2 l st h1 h2
    by_cases h : l = []
    · subst h; rw [decodeLoopGo_nil, decodeLoopGo_nil]
    · have hlt := scanStep_snd_lt l h
      have hlen : 0 < l.length := List.length_pos.mpr h
      cases f2 with
      | zero => omega
      | succ m =>
        simp only [decodeLoopGo, h, if_false]
        exact ih m (scanStep l).2 (applyTok (scanStep l).1 st) (by omega) (by omega)

/-! ## Properties of the CR/LF segmentation -/

theorem takeCRLFRun_fst_all (l : List Nat) :
    ∀ b ∈ (takeCRLFRun l).1, isCRLFByte b = true := by
  induction l with
  | nil => intro b hb; simp [takeCRLFRun] at hb
  | cons x r ih =>
    intro b hb
    simp only [takeCRLFRun] at hb
    split at hb
    · rename_i hx
      simp only [List.mem_cons] at hb
      rcases hb with rfl | hb
      · exact hx
      · exact ih b hb
    · simp at hb

theorem splitCRLFGo_join : ∀ (fuel : Nat) (s : List Nat), s.length ≤ fuel →
    listJoin (splitCRLFGo fuel s) = s := by
  intro fuel
  induction fuel with
  | zero =>
    intro s h
    have : s = [] := List.length_eq_zero.mp (Nat.le_zero.mp h)
    subst this; rfl
  | succ n ih =>
    intro s h
    by_cases hs : s = []
    · subst hs; rfl
    · simp only [splitCRLFGo, hs, if_false]
      by_cases hr : (breakCRLF s).2 = []
      · simp [hr, listJoin]
      · simp only [hr, if_false, listJoin]
        obtain ⟨b, t, hbt⟩ : ∃ b t, (breakCRLF s).2 = b :: t := by
          cases hrr : (breakCRLF s).2 with
          | nil => exact absurd hrr hr
          | cons b t => exact ⟨b, t, rfl⟩
        have hcr := breakCRLF_snd_head s b t hbt
        have hrun : (takeCRLFRun (breakCRLF s).2).1 ≠ [] := by
          rw [hbt]; exact takeCRLFRun_fst_ne b t hcr
        have h1 := breakCRLF_append s
        have h2 := takeCRLFRun_append (breakCRLF s).2
        have hlen : (takeCRLFRun (breakCRLF s).2).2.length ≤ n := by
          have e1 := congrArg List.length h1
          have e2 := congrArg List.length h2
          simp only [List.length_append] at e1 e2
          have hp : 0 < (takeCRLFRun (breakCRLF s).2).1.length := List.length_pos.mpr hrun
          omega
        rw [ih _ hlen, List.append_assoc, h2, h1]

theorem splitOnCRLFRuns_join (s : List Nat) : listJoin (splitOnCRLFRuns s) = s :=
  splitCRLFGo_join s.length s le_rfl

theorem splitOnCRLFRuns_ne_nil (s : List Nat) (h : s ≠ []) : splitOnCRLFRuns s ≠ [] := by
  unfold splitOnCRLFRuns
  cases hl : s.length with
  | zero => exact absurd (List.length_eq_zero.mp hl) h
  | succ k =>
    simp only [splitCRLFGo, h, if_false]
    split <;> simp

theorem splitCRLFGo_not_last_ends : ∀ (fuel : Nat) (s : List Nat) (k : Nat) (seg : List Nat),
    s.length ≤ fuel → (splitCRLFGo fuel s)[k]? = some seg →
    k + 1 < (splitCRLFGo fuel s).length →
    ∃ b, seg.getLast? = some b ∧ isCRLFByte b = true := by
  intro fuel
  induction fuel with
  | zero => intro s k seg _ hget _; simp [splitCRLFGo] at hget
  | succ n ih =>
    intro s k seg hlen hget hk
    by_cases hs : s = []
    · subst hs; simp [splitCRLFGo] at hget
    · simp only [splitCRLFGo, hs, if_false] at hget hk
      by_cases hr : (breakCRLF s).2 = []
      · simp only [hr, if_true] at hget hk
        simp at hk
      · simp only [hr, if_false] at hget hk
        obtain ⟨b, t, hbt⟩ : ∃ b t, (breakCRLF s).2 = b :: t := by
          cases hrr : (breakCRLF s).2 with
          | nil => exact absurd hrr hr
          | cons b t => exact ⟨b, t, rfl⟩
        have hcr := breakCRLF_snd_head s b t hbt
        have hrun : (takeCRLFRun (breakCRLF s).2).1 ≠ [] := by
          rw [hbt]; exact takeCRLFRun_fst_ne b t hcr
        cases k with
        | zero =>
          simp only [List.getElem?_cons_zero, Option.some.injEq] at hget
          subst hget
          refine ⟨(takeCRLFRun (breakCRLF s).2).1.getLast hrun, ?_, ?_⟩
          · rw [List.getLast?_append]
            rw [List.getLast?_eq_getLast _ hrun]
            rfl
          · exact takeCRLFRun_fst_all _ _ (List.getLast_mem hrun)
        | succ j =>
          simp only [List.getElem?_cons_succ] at hget
          simp only [List.length_cons] at hk
          have h1 := breakCRLF_append s
          have h2 := takeCRLFRun_append (breakCRLF s).2
          have hlen2 : (takeCRLFRun (breakCRLF s).2).2.length ≤ n := by
            have e1 := congrArg List.length h1
            have e2 := congrArg List.length h2
            simp only [List.length_append] at e1 e2
            have hp : 0 < (takeCRLFRun (breakCRLF s).2).1.length := List.length_pos.mpr hrun
            omega
          exact ih _ j seg hlen2 hget (by omega)

theorem splitCRLFGo_heads : ∀ (fuel : Nat) (s : List Nat), s.length ≤ fuel →
    (∀ b t, s = b :: t → isCRLFByte b = false) →
    ∀ (k : Nat) (seg : List Nat), (splitCRLFGo fuel s)[k]? = some seg →
    ∃ b, seg.head? = some b ∧ isCRLFByte b = false := by
  intro fuel
  induction fuel with
  | zero => intro s _ _ k seg hget; simp [splitCRLFGo] at hget
  | succ n ih =>
    intro s hlen hhead k seg hget
    by_cases hs : s = []
    · subst hs; simp [splitCRLFGo] at hget
    · obtain ⟨b, t, rfl⟩ : ∃ b t, s = b :: t := by
        cases s with
        | nil => exact absurd rfl hs
        | cons b t => exact ⟨b, t, rfl⟩
      have hb := hhead b t rfl
      simp only [splitCRLFGo, hs, if_false] at hget
      have hbreak : breakCRLF (b :: t) = (b :: (breakCRLF t).1, (breakCRLF t).2) := by
        simp [breakCRLF, hb]
      by_cases hr : (breakCRLF (b :: t)).2 = []
      · simp only [hr, if_true] at hget
        cases k with
        | zero =>
          simp only [List.getElem?_cons_zero, Option.some.injEq] at hget
          subst hget
          exact ⟨b, rfl, hb⟩
        | succ j => simp at hget
      · simp only [hr, if_false] at hget
        cases k with
        | zero =>
          simp only [List.getElem?_cons_zero, Option.some.injEq] at hget
          subst hget
          rw [hbreak]
          exact ⟨b, rfl, hb⟩
        | succ j =>
          simp only [List.getElem?_cons_succ] at hget
          obtain ⟨c2, t2, hct⟩ : ∃ c2 t2, (breakCRLF (b :: t)).2 = c2 :: t2 := by
            cases hrr : (breakCRLF (b :: t)).2 with
            | nil => exact absurd hrr hr
            | cons c2 t2 => exact ⟨c2, t2, rfl⟩
          have hcr := breakCRLF_snd_head _ c2 t2 hct
          have hrun : (takeCRLFRun (breakCRLF (b :: t)).2).1 ≠ [] := by
            rw [hct]; exact takeCRLFRun_fst_ne c2 t2 hcr
          have h1 := breakCRLF_append (b :: t)
          have h2 := takeCRLFRun_append (breakCRLF (b :: t)).2
          have hlen2 : (takeCRLFRun (breakCRLF (b :: t)).2).2.length ≤ n := by
            have e1 := congrArg List.length h1
            have e2 := congrArg List.length h2
            simp only [List.length_append] at e1 e2
            have hp : 0 < (takeCRLFRun (breakCRLF (b :: t)).2).1.length := List.length_pos.mpr hrun
            omega
          exact ih _ hlen2 (fun b2 t2b hbt2 => takeCRLFRun_snd_head _ b2 t2b hbt2) j seg hget

/-! ## Properties of the segment emitter -/

theorem emitSegs_len : ∀ (segs : List (List Nat)) (c : Nat),
    (emitSegs segs c).length = segs.length
  | [], _ => rfl
  | [s], c => by by_cases hc : 0 < c <;> simp [emitSegs, hc]
  | s :: b :: t, c => by
    have ih := emitSegs_len (b :: t) c
    simp only [emitSegs, List.length_cons] at ih ⊢
    omega

theorem emitSegs_get_not_last : ∀ (segs : List (List Nat)) (c k : Nat) (s : List Nat),
    segs[k]? = some s → k + 1 < segs.length →
    (emitSegs segs c)[k]? = some (ascii "TXT " ++ goQuote s)
  | [], _, _, _ => by intro h _; simp at h
  | [x], c, k, s => by
    intro h hk
    simp only [List.length_singleton] at hk
    omega
  | x :: b :: t, c, k, s => by
    intro h hk
    cases k with
    | zero =>
      simp only [List.getElem?_cons_zero, Option.some.injEq] at h
      subst h
      simp [emitSegs]
    | succ j =>
      simp only [List.getElem?_cons_succ] at h
      simp only [List.length_cons] at hk
      have := emitSegs_get_not_last (b :: t) c j s h (by simp only [List.length_cons]; omega)
      simpa [emitSegs] using this

theorem emitSegs_get_last : ∀ (segs : List (List Nat)) (c : Nat) (s : List Nat),
    segs.getLast? = some s →
    (emitSegs segs c)[segs.length - 1]? =
      some (if 0 < c then ascii "TXT " ++ goQuote s ++ ascii " // " ++ natDec c ++ ascii "C"
            else ascii "TXT " ++ goQuote s)
  | [], _, _ => by intro h; simp at h
  | [x], c, s => by
    intro h
    simp only [List.getLast?_singleton, Option.some.injEq] at h
    subst h
    by_cases hc : 0 < c <;> simp [emitSegs, hc]
  | x :: b :: t, c, s => by
    intro h
    rw [List.getLast?_cons_cons] at h
    have ih := emitSegs_get_last (b :: t) c s h
    simp only [List.length_cons] at ih ⊢
    simp only [emitSegs]
    have : t.length + 1 + 1 - 1 = (t.length + 1 - 1) + 1 := by omega
    rw [this, List.getElem?_cons_succ]
    exact ih

theorem flushText_lines (pre : List (List Nat)) (tb : List Nat) (c : Nat) (htb : tb ≠ []) :
    (flushText ⟨pre, tb, c⟩).lines = pre ++ emitSegs (splitOnCRLFRuns tb) c := by
  have hsplit : splitOnCRLFRuns tb ≠ [] := splitOnCRLFRuns_ne_nil tb htb
  simp [flushText, htb, hsplit]

/-! ## Claims C1, C2, C3, C9 -/

/-- C1: the decode scan is total — every iteration of the scan loop strictly
advances (the unconsumed remainder is strictly shorter), and therefore the
decode loop is insensitive to any fuel bound at least the buffer length: the
decode of any byte buffer, however truncated or malformed, is a well-defined
total function of the buffer. -/
theorem claim_C1_decode_total :
    (∀ l : List Nat, l ≠ [] → (scanStep l).2.length < l.length) ∧
    (∀ (fuel : Nat) (data : List Nat) (st : DecState), data.length ≤ fuel →
      decodeLoopGo fuel data st = decodeLoopGo data.length data st) :=
  ⟨scanStep_snd_lt,
   fun fuel data st h => decodeLoopGo_fuel fuel data.length data st h le_rfl⟩

/-- Witness for C1 at concrete inputs: a dangling ESC strictly advances, and
extra fuel does not change the decode of a truncated CSI buffer. -/
theorem claim_C1_decode_total_witness :
    (([27] : List Nat) ≠ [] ∧ (scanStep [27]).2.length < ([27] : List Nat).length) ∧
    ((ascii "ab\x1b[31").length ≤ 12 ∧
      decodeLoopGo 12 (ascii "ab\x1b[31") ⟨[], [], 0⟩ =
        decodeLoopGo (ascii "ab\x1b[31").length (ascii "ab\x1b[31") ⟨[], [], 0⟩) :=
  ⟨⟨by decide, claim_C1_decode_total.1 [27] (by decide)⟩,
   ⟨by decide, claim_C1_decode_total.2 12 (ascii "ab\x1b[31") ⟨[], [], 0⟩ (by decide)⟩⟩

/-- C2: coverage — for any buffer, the raw spans of the tokens emitted by the
scanner, concatenated in emission order, equal the buffer exactly. -/
theorem claim_C2_coverage (data : List Nat) :
    listJoin ((scanTokens data).map DTok.raw) = data :=
  scanTokensGo_raw_join data.length data le_rfl

/-- C9: concatenating the segments of `splitOnCRLFRuns` restores the input;
every segment but the last ends in a CR/LF byte, and the run ending a segment
is maximal — every segment after the first begins with a non-CR/LF byte. -/
theorem claim_C9_split_crlf :
    (∀ s : List Nat, listJoin (splitOnCRLFRuns s) = s) ∧
    (∀ (s : List Nat) (k : Nat) (seg : List Nat), (splitOnCRLFRuns s)[k]? = some seg →
      k + 1 < (splitOnCRLFRuns s).length →
      ∃ b, seg.getLast? = some b ∧ isCRLFByte b = true) ∧
    (∀ (s : List Nat) (k : Nat) (seg : List Nat), (splitOnCRLFRuns s)[k]? = some seg →
      1 ≤ k → ∃ b, seg.head? = some b ∧ isCRLFByte b = false) := by
  refine ⟨splitOnCRLFRuns_join, ?_, ?_⟩
  · intro s k seg hget hk
    exact splitCRLFGo_not_last_ends s.length s k seg le_rfl hget hk
  · intro s k seg hget hk
    unfold splitOnCRLFRuns at hget
    by_cases hs : s = []
    · subst hs; simp [splitCRLFGo] at hget
    · have hpos : 0 < s.length := List.length_pos.mpr hs
      obtain ⟨m, hm⟩ : ∃ m, s.length = m + 1 := ⟨s.length - 1, by omega⟩
      rw [hm] at hget
      simp only [splitCRLFGo, hs, if_false] at hget
      by_cases hr : (breakCRLF s).2 = []
      · simp only [hr, if_true] at hget
        obtain ⟨j, rfl⟩ : ∃ j, k = j + 1 := ⟨k - 1, by omega⟩
        simp at hget
      · simp only [hr, if_false] at hget
        obtain ⟨j, rfl⟩ : ∃ j, k = j + 1 := ⟨k - 1, by omega⟩
        simp only [List.getElem?_cons_succ] at hget
        obtain ⟨c2, t2, hct⟩ : ∃ c2 t2, (breakCRLF s).2 = c2 :: t2 := by
          cases hrr : (breakCRLF s).2 with
          | nil => exact absurd hrr hr
          | cons c2 t2 => exact ⟨c2, t2, rfl⟩
        have hcr := breakCRLF_snd_head _ c2 t2 hct
        have hrun : (takeCRLFRun (breakCRLF s).2).1 ≠ [] := by
          rw [hct]; exact takeCRLFRun_fst_ne c2 t2 hcr
        have h1 := breakCRLF_append s
        have h2 := takeCRLFRun_append (breakCRLF s).2
        have hlen2 : (takeCRLFRun (breakCRLF s).2).2.length ≤ m := by
          have e1 := congrArg List.length h1
          have e2 := congrArg List.length h2
          simp only [List.length_append] at e1 e2
          have hp : 0 < (takeCRLFRun (breakCRLF s).2).1.length := List.length_pos.mpr hrun
          omega
        exact splitCRLFGo_heads m _ hlen2
          (fun b2 t2b hbt2 => takeCRLFRun_snd_head _ b2 t2b hbt2) j seg hget

/-- Witness for C9 at `"a\r\nb"` (segments `"a\r\n"` and `"b"`). -/
theorem claim_C9_split_crlf_witness :
    listJoin (splitOnCRLFRuns (ascii "a\r\nb")) = ascii "a\r\nb" ∧
    ((splitOnCRLFRuns (ascii "a\r\nb"))[0]? = some (ascii "a\r\n") ∧
      0 + 1 < (splitOnCRLFRuns (ascii "a\r\nb")).length ∧
      ∃ b, (ascii "a\r\n").getLast? = some b ∧ isCRLFByte b = true) ∧
    ((splitOnCRLFRuns (ascii "a\r\nb"))[1]? = some (ascii "b") ∧
      ∃ b, (ascii "b").head? = some b ∧ isCRLFByte b = false) :=
  ⟨claim_C9_split_crlf.1 (ascii "a\r\nb"),
   ⟨by decide, by decide,
    claim_C9_split_crlf.2.1 (ascii "a\r\nb") 0 (ascii "a\r\n") (by decide) (by decide)⟩,
   ⟨by decide,
    claim_C9_split_crlf.2.2 (ascii "a\r\nb") 1 (ascii "b") (by decide) (by decide)⟩⟩

/-- C3: a flush of a nonempty text accumulator emits exactly one TXT line per
CR/LF segment, in order, appended after the existing lines; only the last
segment carries the collapsed-space annotation, and only when the pending
count is positive.  In particular decoding `"hi\x1b[1Cworld\x1b[3Cfoo\r\nbar"`
produces `TXT "hi world   foo\r\n"` followed by `TXT "bar" // 4C`. -/
theorem claim_C3_flush_segments :
    (∀ (pre : List (List Nat)) (tb : List Nat) (c : Nat), tb ≠ [] →
      (flushText ⟨pre, tb, c⟩).lines.length = pre.length + (splitOnCRLFRuns tb).length ∧
      (∀ k s, (splitOnCRLFRuns tb)[k]? = some s → k + 1 < (splitOnCRLFRuns tb).length →
        (flushText ⟨pre, tb, c⟩).lines[pre.length + k]? =
          some (ascii "TXT " ++ goQuote s)) ∧
      (∀ s, (splitOnCRLFRuns tb).getLast? = some s →
        (flushText ⟨pre, tb, c⟩).lines[pre.length + ((splitOnCRLFRuns tb).length - 1)]? =
          some (if 0 < c then ascii "TXT " ++ goQuote s ++ ascii " // " ++ natDec c ++ ascii "C"
                else ascii "TXT " ++ goQuote s))) ∧
    formatDebugTermDecode (ascii "hi\x1b[1Cworld\x1b[3Cfoo\r\nbar") =
      ascii "TXT \"hi world   foo\\r\\n\"\nTXT \"bar\" // 4C\n" := by
  constructor
  · intro pre tb c htb
    rw [flushText_lines pre tb c htb]
    refine ⟨?_, ?_, ?_⟩
    · simp [List.length_append, emitSegs_len]
    · intro k s hget hk
      rw [List.getElem?_append_right (by omega)]
      have : pre.length + k - pre.length = k := by omega
      rw [this]
      exact emitSegs_get_not_last _ c k s hget hk
    · intro s hlast
      rw [List.getElem?_append_right (by omega)]
      have : pre.length + ((splitOnCRLFRuns tb).length - 1) - pre.length =
          (splitOnCRLFRuns tb).length - 1 := by omega
      rw [this]
      exact emitSegs_get_last _ c s hlast
  · decide

/-- Witness for C3 at a concrete flush (`textBuf = "x\ny"`, count 2). -/
theorem claim_C3_flush_segments_witness :
    (ascii "x\ny" : List Nat) ≠ [] ∧
    (flushText ⟨[], ascii "x\ny", 2⟩).lines.length =
      ([] : List (List Nat)).length + (splitOnCRLFRuns (ascii "x\ny")).length :=
  ⟨by decide, (claim_C3_flush_segments.1 [] (ascii "x\ny") 2 (by decide)).1⟩

/-! ## Claim C4: unterminated CSI sequences -/

theorem lookupNone {α β : Type} [BEq α] (tbl : List (α × β)) (b : α)
    (h : ∀ p ∈ tbl, (b == p.1) = false) : List.lookup b tbl = none := by
  induction tbl with
  | nil => rfl
  | cons p t ih =>
    obtain ⟨k, v⟩ := p
    have hp := h (k, v) (by simp)
    simp only at hp
    simp only [List.lookup, hp]
    exact ih fun q hq => h q (by simp [hq])

theorem csiScan_no_final (t : List Nat) (h : ∀ b ∈ t, ¬(0x40 ≤ b ∧ b ≤ 0x7e)) :
    csiScan t = (t, []) := by
  induction t with
  | nil => rfl
  | cons b r ih =>
    have hb : (0x40 ≤ b && b ≤ 0x7e) = false := by
      have := h b (by simp)
      simp only [Bool.and_eq_false_iff, decide_eq_false_iff_not]
      omega
    have ihr := ih fun x hx => h x (by simp [hx])
    simp [csiScan, hb, ihr]

/-- C4 counterexample: for the buffer `ESC [ 3 1` no byte in `[0x40, 0x7e]`
occurs, yet the line is `CSI 1 3` — the last byte `'1'` of the span is
promoted to the final byte, and the span is not formatted as an opaque quoted
CSI. -/
theorem claim_C4_counterexample :
    consumeDebugTermCSI (ascii "\x1b[31") = (ascii "\x1b[31", []) ∧
    formatDebugTermCSILine (ascii "\x1b[31") = ascii "CSI 1 3" ∧
    formatDebugTermCSILine (ascii "\x1b[31") ≠ ascii "CSI " ++ goQuoteToASCII (ascii "\x1b[31") ∧
    formatDebugTermDecode (ascii "\x1b[31") = ascii "CSI 1 3\n" := by
  refine ⟨by decide, by decide, by decide, by decide⟩

/-- C4 as amended: for a CSI with no byte in `[0x40, 0x7e]` before the end of
the buffer, the raw span does run to the end of the buffer; but only the
two-byte span `ESC [` is formatted opaquely — a longer unterminated span has
its LAST byte promoted to the final byte and the rest treated as parameters. -/
theorem claim_C4_unterminated_csi (t : List Nat)
    (hnof : ∀ b ∈ t, ¬(0x40 ≤ b ∧ b ≤ 0x7e)) :
    consumeDebugTermCSI (0x1b :: 0x5b :: t) = (0x1b :: 0x5b :: t, []) ∧
    (t = [] → formatDebugTermCSILine (0x1b :: 0x5b :: t) =
      ascii "CSI " ++ goQuoteToASCII (0x1b :: 0x5b :: t)) ∧
    (∀ b0 t0, t = t0 ++ [b0] → formatDebugTermCSILine (0x1b :: 0x5b :: t) =
      ascii "CSI " ++ [b0] ++ (if t0 = [] then [] else 0x20 :: t0)) := by
  refine ⟨?_, ?_, ?_⟩
  · have := csiScan_no_final t hnof
    simp [consumeDebugTermCSI, this]
  · intro ht; subst ht; rfl
  · intro b0 t0 ht
    subst ht
    have hb0 : ¬(0x40 ≤ b0 ∧ b0 ≤ 0x7e) := hnof b0 (by simp)
    have hlen : ¬((0x1b :: 0x5b :: (t0 ++ [b0])).length < 3) := by
      simp only [List.length_cons, List.length_append, List.length_singleton]
      omega
    have hdrop : (0x1b :: 0x5b :: (t0 ++ [b0])).drop 2 = t0 ++ [b0] := rfl
    have hfin : (t0 ++ [b0]).getLastD 0 = b0 := by
      rw [List.getLastD_eq_getLast?, List.getLast?_concat]
      rfl
    have hpar : (t0 ++ [b0]).dropLast = t0 := List.dropLast_concat
    have h104 : (b0 == 104) = false := by
      simp only [beq_eq_false_iff_ne]
      omega
    have h108 : (b0 == 108) = false := by
      simp only [beq_eq_false_iff_ne]
      omega
    have h109 : (b0 == 109) = false := by
      simp only [beq_eq_false_iff_ne]
      omega
    have hkeys : ∀ p ∈ csiCommandDescriptions, 64 ≤ p.1 ∧ p.1 ≤ 126 := by decide
    have hlook : List.lookup b0 csiCommandDescriptions = none := by
      refine lookupNone _ _ fun p hp => ?_
      have := hkeys p hp
      simp only [beq_eq_false_iff_ne]
      omega
    simp only [formatDebugTermCSILine, hlen, if_false, hdrop, hfin, hpar,
      h104, h108, h109, Bool.or_self, Bool.and_false, Bool.false_eq_true, if_false,
      Bool.or_false, hlook]
    by_cases h0 : t0 = []
    · subst h0; rfl
    · have : t0.isEmpty = false := by
        cases t0 with
        | nil => exact absurd rfl h0
        | cons a b => rfl
      simp [this, h0]

/-- Witness for C4 at the concrete unterminated CSI `ESC [ 3 1`. -/
theorem claim_C4_unterminated_csi_witness :
    (∀ b ∈ (ascii "31"), ¬(0x40 ≤ b ∧ b ≤ 0x7e)) ∧
    consumeDebugTermCSI (0x1b :: 0x5b :: ascii "31") = (0x1b :: 0x5b :: ascii "31", []) ∧
    formatDebugTermCSILine (0x1b :: 0x5b :: ascii "31") = ascii "CSI 1 3" := by
  refine ⟨by decide, (claim_C4_unterminated_csi (ascii "31") (by decide)).1, ?_⟩
  have h := (claim_C4_unterminated_csi (ascii "31") (by decide)).2.2 49 [51] (by decide)
  rw [show (0x1b :: 0x5b :: ascii "31") = (0x1b :: 0x5b :: ([51] ++ [49])) by decide] at h ⊢
  rw [h]
  decide

/-! ## Claim C5: the SGR describer -/

/-- The single-numeric-code rule as claim C5 states it: the exact-code table
over `{0,1,2,3,4,5,7,8,9,21,22,23,24,25,27,28,29,39,49}`, the four range
mappings, and the empty description otherwise (spec-side definition for the
refinement theorem below). -/
def sgrSingleSpec (p0 : List Nat) : List Nat :=
  match goAtoi p0 with
  | none => []
  | some n =>
    if n = 0 then ascii "reset all"
    else if n = 1 then ascii "bold"
    else if n = 2 then ascii "dim"
    else if n = 3 then ascii "italic"
    else if n = 4 then ascii "underline"
    else if n = 5 then ascii "blink"
    else if n = 7 then ascii "reverse"
    else if n = 8 then ascii "hidden"
    else if n = 9 then ascii "strikethrough"
    else if n = 21 then ascii "doubly underlined"
    else if n = 22 then ascii "normal intensity"
    else if n = 23 then ascii "not italic"
    else if n = 24 then ascii "not underlined"
    else if n = 25 then ascii "not blinking"
    else if n = 27 then ascii "not reversed"
    else if n = 28 then ascii "not hidden"
    else if n = 29 then ascii "not strikethrough"
    else if n = 39 then ascii "default fg"
    else if n = 49 then ascii "default bg"
    else if 30 ≤ n ∧ n ≤ 37 then ascii "fg ansi color " ++ intDec (n - 30)
    else if 40 ≤ n ∧ n ≤ 47 then ascii "bg ansi color " ++ intDec (n - 40)
    else if 90 ≤ n ∧ n ≤ 97 then ascii "fg bright color " ++ intDec (n - 90)
    else if 100 ≤ n ∧ n ≤ 107 then ascii "bg bright color " ++ intDec (n - 100)
    else []

/-- The SGR describer as claim C5 states it, by cases on the parameter string
split on `';'` (spec-side definition for the refinement theorem below). -/
def describeSGRSpec (params : List Nat) : List Nat :=
  if params = [] then ascii "reset all"
  else
    match splitSemi params with
    | p0 :: p1 :: p2 :: p3 :: p4 :: _ =>
      if p0 = ascii "38" ∧ p1 = ascii "2" then
        ascii "fg rgb(" ++ p2 ++ [44] ++ p3 ++ [44] ++ p4 ++ [41]
      else if p0 = ascii "48" ∧ p1 = ascii "2" then
        ascii "bg rgb(" ++ p2 ++ [44] ++ p3 ++ [44] ++ p4 ++ [41]
      else []
    | [p0, p1, p2] =>
      if p0 = ascii "38" ∧ p1 = ascii "5" then ascii "fg color256(" ++ p2 ++ [41]
      else if p0 = ascii "48" ∧ p1 = ascii "5" then ascii "bg color256(" ++ p2 ++ [41]
      else []
    | [p0] => sgrSingleSpec p0
    | _ => []

theorem describeSGRSingle_spec (p0 : List Nat) : describeSGRSingle p0 = sgrSingleSpec p0 := by
  unfold describeSGRSingle sgrSingleSpec
  cases goAtoi p0 with
  | none => rfl
  | some n =>
    dsimp only
    by_cases h0 : n = 0
    · subst h0; rfl
    by_cases h1 : n = 1
    · subst h1; rfl
    by_cases h2 : n = 2
    · subst h2; rfl
    by_cases h3 : n = 3
    · subst h3; rfl
    by_cases h4 : n = 4
    · subst h4; rfl
    by_cases h5 : n = 5
    · subst h5; rfl
    by_cases h7 : n = 7
    · subst h7; rfl
    by_cases h8 : n = 8
    · subst h8; rfl
    by_cases h9 : n = 9
    · subst h9; rfl
    by_cases h21 : n = 21
    · subst h21; rfl
    by_cases h22 : n = 22
    · subst h22; rfl
    by_cases h23 : n = 23
    · subst h23; rfl
    by_cases h24 : n = 24
    · subst h24; rfl
    by_cases h25 : n = 25
    · subst h25; rfl
    by_cases h27 : n = 27
    · subst h27; rfl
    by_cases h28 : n = 28
    · subst h28; rfl
    by_cases h29 : n = 29
    · subst h29; rfl
    by_cases h39 : n = 39
    · subst h39; rfl
    by_cases h49 : n = 49
    · subst h49; rfl
    have hkeys : ∀ p ∈ sgrSingleDescriptions,
        p.1 = 0 ∨ p.1 = 1 ∨ p.1 = 2 ∨ p.1 = 3 ∨ p.1 = 4 ∨ p.1 = 5 ∨ p.1 = 7 ∨ p.1 = 8 ∨
        p.1 = 9 ∨ p.1 = 21 ∨ p.1 = 22 ∨ p.1 = 23 ∨ p.1 = 24 ∨ p.1 = 25 ∨ p.1 = 27 ∨
        p.1 = 28 ∨ p.1 = 29 ∨ p.1 = 39 ∨ p.1 = 49 := by decide
    have hlook : List.lookup n sgrSingleDescriptions = none := by
      refine lookupNone _ _ fun p hp => ?_
      have hd := hkeys p hp
      simp only [beq_eq_false_iff_ne]
      rcases hd with h | h | h | h | h | h | h | h | h | h | h | h | h | h | h | h | h | h | h <;>
        omega
    rw [hlook]
    simp only [h0, h1, h2, h3, h4, h5, h7, h8, h9, h21, h22, h23, h24, h25, h27, h28, h29,
      h39, h49, if_false]

/-- C5: the source SGR describer agrees everywhere with the specification's
case enumeration — empty parameters give "reset all"; at least five parts
starting `38;2`/`48;2` give the rgb forms; exactly three parts starting
`38;5`/`48;5` give the 256-color forms; exactly one numeric part goes through
the exact-code table and the four range mappings; and every other input
(including multi-part combinations such as `"1;99"`) gives no description. -/
theorem claim_C5_describe_sgr (params : List Nat) :
    describeSGR params = describeSGRSpec params := by
  by_cases hp : params = []
  · subst hp; rfl
  · simp only [describeSGR, describeSGRSpec, hp, if_false]
    rcases hsp : splitSemi params with _ | ⟨p0, _ | ⟨p1, _ | ⟨p2, _ | ⟨p3, _ | ⟨p4, rest⟩⟩⟩⟩⟩
    · simp
    · simp [describeSGRSingle_spec]
    · simp
    · simp only [List.length_cons, List.length_nil, List.getD]
      norm_num
    · simp
    · simp only [List.length_cons, List.getD]
      have hlen5 : 5 ≤ rest.length + 1 + 1 + 1 + 1 + 1 := by omega
      have hlen3 : ¬(rest.length + 1 + 1 + 1 + 1 + 1 = 3) := by omega
      have hlen1 : rest.length + 1 + 1 + 1 + 1 + 1 ≠ 1 := by omega
      simp [hlen5, hlen3, hlen1]

/-! ## Claim C6: OSC line formation -/

/-- The OSC line formation as claim C6 states it, for every raw span: strip
the `ESC ]` prefix and one trailing `BEL` or `ESC '\'` terminator, then split
on the FIRST `';'` into code and data when one occurs (spec-side definition
for the corrected claim below; the source applies this only to spans of
length at least 3). -/
def oscSpecLine (seq : List Nat) : List Nat :=
  let inner := trimOneSuffix (trimOneSuffix (seq.drop 2) [0x07]) [0x1b, 0x5c]
  if inner.contains 0x3b then
    let code := inner.takeWhile (fun b => b != 0x3b)
    let dat := (inner.dropWhile (fun b => b != 0x3b)).tail
    ascii "OSC " ++ code ++ [0x20] ++ goQuoteToASCII dat
  else ascii "OSC " ++ goQuoteToASCII inner

theorem splitFirstSemi_eq (l : List Nat) :
    splitFirstSemi l =
      if l.contains 0x3b then
        some (l.takeWhile (fun b => b != 0x3b), (l.dropWhile (fun b => b != 0x3b)).tail)
      else none := by
  induction l with
  | nil => rfl
  | cons b r ih =>
    by_cases hb : b = 0x3b
    · subst hb
      simp [splitFirstSemi, List.contains_cons, List.takeWhile, List.dropWhile]
    · have hbne : (b == 0x3b) = false := beq_eq_false_iff_ne.mpr hb
      simp only [splitFirstSemi, hbne, Bool.false_eq_true, if_false, List.contains_cons,
        Bool.false_or, List.takeWhile, List.dropWhile, bne, Bool.not_false, ih]
      have hb' : ¬((0x3b : Nat) = b) := fun h => hb h.symm
      by_cases hc : (0x3b : Nat) ∈ r
      · simp [hc, hb']
      · simp [hc, hb']

/-- C6 counterexample: the minimal two-byte OSC raw span `ESC ]` (produced by
the buffer that ends right after `ESC ]`) is NOT stripped — the whole span is
quoted, contradicting the claim that the prefix is stripped for every OSC raw
span. -/
theorem claim_C6_counterexample :
    consumeDebugTermOSC (ascii "\x1b]") = (ascii "\x1b]", []) ∧
    formatDebugTermOSCLine (ascii "\x1b]") = ascii "OSC \"\\x1b]\"" ∧
    formatDebugTermOSCLine (ascii "\x1b]") ≠ oscSpecLine (ascii "\x1b]") := by
  refine ⟨by decide, by decide, by decide⟩

/-- C6 as amended: the strip-prefix/strip-terminator/split-on-first-semicolon
line formation holds for every OSC raw span of length at least 3; the
two-byte span `ESC ]` alone is instead emitted as the quoted whole span. -/
theorem claim_C6_osc_strip (seq : List Nat) (h3 : 3 ≤ seq.length) :
    formatDebugTermOSCLine seq = oscSpecLine seq := by
  have hlt : ¬(seq.length < 3) := by omega
  simp only [formatDebugTermOSCLine, oscSpecLine, hlt, if_false, splitFirstSemi_eq]
  by_cases hc : (0x3b : Nat) ∈ trimOneSuffix (trimOneSuffix (seq.drop 2) [0x07]) [0x1b, 0x5c]
  · simp [hc]
  · simp [hc]

/-- Witness for C6 at the OSC span of `"\x1b]0;title\x07"`. -/
theorem claim_C6_osc_strip_witness :
    3 ≤ (ascii "\x1b]0;title\x07").length ∧
    formatDebugTermOSCLine (ascii "\x1b]0;title\x07") = ascii "OSC 0 \"title\"" := by
  refine ⟨by decide, ?_⟩
  rw [claim_C6_osc_strip (ascii "\x1b]0;title\x07") (by decide)]
  decide

/-! ## JSON (Go `encoding/json`, as used by the input normalizer)

The normalizer calls `json.Unmarshal` twice; its semantics are modelled here:
a JSON value parser over bytes (the scanner plus `unquoteBytes`), and the
decoding rules into `[]debugTermStdinEntry` and `[]string`. -/

/-- JSON whitespace accepted by Go's `encoding/json` scanner. -/
def jIsWs (b : Nat) : Bool := b == 0x20 || b == 9 || b == 10 || b == 13

def jskipWs (l : List Nat) : List Nat := l.dropWhile jIsWs

/-- Hex digit value for JSON `\u` escapes (Go `getu4`). -/
def jHexVal (b : Nat) : Option Nat :=
  if 48 ≤ b && b ≤ 57 then some (b - 48)
  else if 97 ≤ b && b ≤ 102 then some (b - 87)
  else if 65 ≤ b && b ≤ 70 then some (b - 55)
  else none

/-- Four hex digits of a `\u` escape (Go `getu4`). -/
def jGetU4 : List Nat → Option (Nat × List Nat)
  | a :: b :: c :: d :: r =>
    match jHexVal a, jHexVal b, jHexVal c, jHexVal d with
    | some x, some y, some z, some w => some (x * 4096 + y * 256 + z * 16 + w, r)
    | _, _, _, _ => none
  | _ => none

/-- Single-character JSON escapes. -/
def jEscChar (e : Nat) : Option Nat :=
  if e == 34 then some 34
  else if e == 92 then some 92
  else if e == 47 then some 47
  else if e == 98 then some 8
  else if e == 102 then some 12
  else if e == 110 then some 10
  else if e == 114 then some 13
  else if e == 116 then some 9
  else none

/-- The JSON string scanner and unquoter after the opening quote (Go's
scanner plus `unquoteBytes`), with explicit fuel (the caller passes the
remaining length; every step consumes at least one byte).  Escapes are
decoded; `\u` surrogate pairs combine and lone surrogates become U+FFFD;
invalid raw UTF-8 becomes U+FFFD; raw control bytes are an error. -/
def jstrBodyGo : Nat → List Nat → Option (List Nat × List Nat)
  | 0, _ => none
  | _ + 1, [] => none
  | fuel + 1, b :: r =>
    if b == 34 then some ([], r)
    else if b == 92 then
      match r with
      | [] => none
      | e :: r2 =>
        if e == 117 then
          match jGetU4 r2 with
          | none => none
          | some (cp, r4) =>
            if 0xD800 ≤ cp && cp < 0xE000 then
              match r4 with
              | e2 :: u2 :: r5 =>
                if e2 == 92 && u2 == 117 then
                  match jGetU4 r5 with
                  | some (cp2, r6) =>
                    if 0xD800 ≤ cp && cp < 0xDC00 && 0xDC00 ≤ cp2 && cp2 < 0xE000 then
                      (jstrBodyGo fuel r6).map (fun p =>
                        (utf8Encode (0x10000 + (cp - 0xD800) * 1024 + (cp2 - 0xDC00)) ++ p.1, p.2))
                    else
                      (jstrBodyGo fuel r4).map (fun p => (utf8Encode 0xFFFD ++ p.1, p.2))
                  | none => (jstrBodyGo fuel r4).map (fun p => (utf8Encode 0xFFFD ++ p.1, p.2))
                else (jstrBodyGo fuel r4).map (fun p => (utf8Encode 0xFFFD ++ p.1, p.2))
              | _ => (jstrBodyGo fuel r4).map (fun p => (utf8Encode 0xFFFD ++ p.1, p.2))
            else (jstrBodyGo fuel r4).map (fun p => (utf8Encode cp ++ p.1, p.2))
        else
          match jEscChar e with
          | some c => (jstrBodyGo fuel r2).map (fun p => (c :: p.1, p.2))
          | none => none
    else if b < 0x20 then none
    else if b < 0x80 then (jstrBodyGo fuel r).map (fun p => (b :: p.1, p.2))
    else
      let sz := (utf8Decode (b :: r)).2
      if sz == 1 then (jstrBodyGo fuel r).map (fun p => (utf8Encode 0xFFFD ++ p.1, p.2))
      else
        (jstrBodyGo fuel (r.drop (sz - 1))).map (fun p =>
          ((b :: r.take (sz - 1)) ++ p.1, p.2))

/-- Exponent part of the Go JSON number grammar (returns the remainder). -/
def jparseNumExp (l : List Nat) : Option (List Nat) :=
  match l with
  | b :: r =>
    if b == 101 || b == 69 then
      let r2 := if r.head? == some 43 || r.head? == some 45 then r.tail else r
      match r2 with
      | c :: _ => if isDigitByte c then some (r2.dropWhile isDigitByte) else none
      | [] => none
    else some (b :: r)
  | [] => some []

/-- Fraction part of the Go JSON number grammar. -/
def jparseNumFrac (l : List Nat) : Option (List Nat) :=
  match l with
  | b :: r =>
    if b == 46 then
      match r with
      | c :: _ => if isDigitByte c then jparseNumExp (r.dropWhile isDigitByte) else none
      | [] => none
    else jparseNumExp (b :: r)
  | [] => some []

/-- Integer part of the Go JSON number grammar (`0` or a nonzero digit
followed by digits). -/
def jparseNumTail (l : List Nat) : Option (List Nat) :=
  match l with
  | b :: r =>
    if b == 48 then jparseNumFrac r
    else if isDigitByte b then jparseNumFrac (r.dropWhile isDigitByte)
    else none
  | [] => none

/-- A full JSON number with optional leading minus. -/
def jparseNumAll (l : List Nat) : Option (List Nat) :=
  match l with
  | b :: r => if b == 45 then jparseNumTail r else jparseNumTail (b :: r)
  | [] => none

/-- Expect a literal keyword tail (for `true`, `false`, `null`). -/
def jexpect (l w : List Nat) : Option (List Nat) :=
  if w.isPrefixOf l then some (l.drop w.length) else none

/-- JSON values (no payload is kept for numbers: the normalizer only ever
decodes strings, and a number in a string position is a type error). -/
inductive Jval where
  | jnull
  | jbool (b : Bool)
  | jnum
  | jstr (s : List Nat)
  | jarr (elems : List Jval)
  | jobj (fields : List (List Nat × Jval))

mutual

/-- The JSON value parser (Go's scanner), with explicit fuel (the top-level
wrapper passes more than the input length, which suffices since each

recursive call follows at least one consumed byte). -/
def jparseVal : Nat → List Nat → Option (Jval × List Nat)
  | 0, _ => none
  | fuel + 1, l =>
    match jskipWs l with
    | [] => none
    | b :: r =>
      if b == 91 then
        match jskipWs r with
        | b2 :: r2 =>
          if b2 == 93 then some (.jarr [], r2)
          else
            match jparseElems fuel (b2 :: r2) with
            | some (es, rest) => some (.jarr es, rest)
            | none => none
        | [] => none
      else if b == 123 then
        match jskipWs r with
        | b2 :: r2 =>
          if b2 == 125 then some (.jobj [], r2)
          else
            match jparseFields fuel (b2 :: r2) with
            | some (fs, rest) => some (.jobj fs, rest)
            | none => none
        | [] => none
      else if b == 34 then
        match jstrBodyGo r.length r with
        | some (s, rest) => some (.jstr s, rest)
        | none => none
      else if b == 116 then
        match jexpect r (ascii "rue") with
        | some rest => some (.jbool true, rest)
        | none => none
      else if b == 102 then
        match jexpect r (ascii "alse") with
        | some rest => some (.jbool false, rest)
        | none => none
      else if b == 110 then
        match jexpect r (ascii "ull") with
        | some rest => some (.jnull, rest)
        | none => none
      else
        match jparseNumAll (b :: r) with
        | some rest => some (.jnum, rest)
        | none => none

/-- Array elements after the opening bracket of a nonempty array. -/
def jparseElems : Nat → List Nat → Option (List Jval × List Nat)
  | 0, _ => none
  | fuel + 1, l =>
    match jparseVal fuel l with
    | none => none
    | some (v, rest) =>
      match jskipWs rest with
      | b :: r2 =>
        if b == 44 then
          match jparseElems fuel r2 with
          | some (es, rest2) => some (v :: es, rest2)
          | none => none
        else if b == 93 then some ([v], r2)
        else none
      | [] => none

/-- Object members after the opening brace of a nonempty object. -/
def jparseFields : Nat → List Nat → Option (List (List Nat × Jval) × List Nat)
  | 0, _ => none
  | fuel + 1, l =>
    match jskipWs l with
    | b :: r =>
      if b == 34 then
        match jstrBodyGo r.length r with
        | none => none
        | some (key, rest) =>
          match jskipWs rest with
          | c :: r2 =>
            if c == 58 then
              match jparseVal fuel r2 with
              | none => none
              | some (v, rest2) =>
                match jskipWs rest2 with
                | d :: r3 =>
                  if d == 44 then
                    match jparseFields fuel r3 with
                    | some (fs, rest3) => some ((key, v) :: fs, rest3)
                    | none => none
                  else if d == 125 then some ([(key, v)], r3)
                  else none
                | [] => none
            else none
          | [] => none
      else none
    | [] => none

end

/-- Go `json.Unmarshal`'s overall shape: parse one value, then require only
whitespace to remain. -/
def jsonUnmarshalTop (data : List Nat) : Option Jval :=
  match jparseVal (data.length + 2) data with
  | some (v, rest) => if jskipWs rest = [] then some v else none
  | none => none

/-- Decoding a JSON value in a `string` position: a string or `null` (which
leaves the zero value); anything else is an `UnmarshalTypeError`. -/
def jstrElem : Jval → Option (List Nat)
  | .jstr s => some s
  | .jnull => some []
  | _ => none

/-- Element-wise decoding of a JSON array into Go slice elements (an element
type error makes the whole `Unmarshal` call fail). -/
def jdecodeArr (g : Jval → Option (List Nat)) : List Jval → Option (List (List Nat))
  | [] => some []
  | v :: r =>
    match g v with
    | none => none
    | some x =>
      match jdecodeArr g r with
      | none => none
      | some xs => some (x :: xs)

/-- `json.Unmarshal(data, &strArr)` for `strArr : []string`. -/
def unmarshalStrArr (data : List Nat) : Option (List (List Nat)) :=
  match jsonUnmarshalTop data with
  | some (.jarr es) => jdecodeArr jstrElem es
  | some .jnull => some []
  | _ => none

def asciiLowerByte (b : Nat) : Nat := if 65 ≤ b && b ≤ 90 then b + 32 else b

/-- Go's JSON field matching for the single struct field tagged `data`:
`strings.EqualFold` with the field name; for the letters of "data" Unicode
simple folding coincides with ASCII case folding. -/
def keyIsData (k : List Nat) : Bool := k.map asciiLowerByte == ascii "data"

/-- Decode the members of one object into the `Data` field of a
`debugTermStdinEntry`: matching keys overwrite in order (`null` leaves the
current value); a matching key with a non-string, non-null value is a type
error; other keys are ignored whatever their value. -/
def entryDataGo : List (List Nat × Jval) → List Nat → Option (List Nat)
  | [], acc => some acc
  | (k, v) :: t, acc =>
    if keyIsData k then
      match v with
      | .jstr s => entryDataGo t s
      | .jnull => entryDataGo t acc
      | _ => none
    else entryDataGo t acc

/-- Decoding a JSON value in a `debugTermStdinEntry` position: an object (its
`data`-matching members, starting from the zero value) or `null`. -/
def jentryElem : Jval → Option (List Nat)
  | .jobj fs => entryDataGo fs []
  | .jnull => some []
  | _ => none

/-- `json.Unmarshal(data, &structArr)` for `structArr : []debugTermStdinEntry`,
composed with extracting the `Data` strings. -/
def unmarshalEntryArr (data : List Nat) : Option (List (List Nat)) :=
  match jsonUnmarshalTop data with
  | some (.jarr es) => jdecodeArr jentryElem es
  | some .jnull => some []
  | _ => none

/-- ASCII whitespace byte (the ASCII fast path of `unicode.IsSpace`). -/
def asciiWsByte (b : Nat) : Bool :=
  b == 9 || b == 10 || b == 11 || b == 12 || b == 13 || b == 32

/-- Go `strings.TrimSpace`.  Exact for ASCII inputs; the non-ASCII Unicode
space code points Go would also trim start with a byte `>= 0x80`, on which
both JSON parses fail anyway, so the normalizer's observable behavior is
unchanged. -/
def trimAsciiSpace (l : List Nat) : List Nat :=
  ((l.dropWhile asciiWsByte).reverse.dropWhile asciiWsByte).reverse

/-- `parseDebugTermStdinData` from the source.  The second component models
the Go `error` return (which is `nil` on every path). -/
def parseDebugTermStdinData (data : List Nat) : List Nat × Option (List Nat) :=
  let trimmed := trimAsciiSpace data
  if trimmed = [] then (data, none)
  else if trimmed.head? = some 91 then
    match unmarshalEntryArr data with
    | some parts => (listJoin parts, none)
    | none =>
      match unmarshalStrArr data with
      | some parts => (listJoin parts, none)
      | none => (data, none)
  else (data, none)

/-! ## Claims C7 and C10 -/

/-- C7: the input normalizer never returns an error; whenever the trimmed
content is empty, does not start with `'['`, or starts with `'['` but both
JSON decodings fail, the ORIGINAL untrimmed input is returned unchanged. -/
theorem claim_C7_normalizer_total (data : List Nat) :
    (parseDebugTermStdinData data).2 = none ∧
    ((trimAsciiSpace data = [] ∨ (trimAsciiSpace data).head? ≠ some 91 ∨
      (unmarshalEntryArr data = none ∧ unmarshalStrArr data = none)) →
     (parseDebugTermStdinData data).1 = data) := by
  by_cases h1 : trimAsciiSpace data = []
  · exact ⟨by simp [parseDebugTermStdinData, h1], fun _ => by simp [parseDebugTermStdinData, h1]⟩
  · by_cases h2 : (trimAsciiSpace data).head? = some 91
    · cases he : unmarshalEntryArr data with
      | some parts =>
        refine ⟨by simp [parseDebugTermStdinData, h1, h2, he], fun h => ?_⟩
        rcases h with h | h | ⟨ha, hb⟩
        · exact absurd h h1
        · exact absurd h2 h
        · exact absurd ha (by simp)
      | none =>
        cases hs : unmarshalStrArr data with
        | some parts =>
          refine ⟨by simp [parseDebugTermStdinData, h1, h2, he, hs], fun h => ?_⟩
          rcases h with h | h | ⟨ha, hb⟩
          · exact absurd h h1
          · exact absurd h2 h
          · exact absurd hb (by simp)
        | none =>
          exact ⟨by simp [parseDebugTermStdinData, h1, h2, he, hs],
                 fun _ => by simp [parseDebugTermStdinData, h1, h2, he, hs]⟩
    · exact ⟨by simp [parseDebugTermStdinData, h1, h2],
             fun _ => by simp [parseDebugTermStdinData, h1, h2]⟩

/-- Witness for C7 at the malformed JSON input `"[oops"` (both decodings
fail; raw passthrough, no error). -/
theorem claim_C7_normalizer_total_witness :
    (parseDebugTermStdinData (ascii "[oops")).2 = none ∧
    (unmarshalEntryArr (ascii "[oops") = none ∧ unmarshalStrArr (ascii "[oops") = none) ∧
    (parseDebugTermStdinData (ascii "[oops")).1 = ascii "[oops" :=
  ⟨(claim_C7_normalizer_total (ascii "[oops")).1, ⟨by decide, by decide⟩,
   (claim_C7_normalizer_total (ascii "[oops")).2 (Or.inr (Or.inr ⟨by decide, by decide⟩))⟩

theorem entryDataGo_no_match : ∀ (fs : List (List Nat × Jval)) (acc : List Nat),
    (∀ kv ∈ fs, keyIsData kv.1 = false) → entryDataGo fs acc = some acc := by
  intro fs
  induction fs with
  | nil => intro acc _; rfl
  | cons kv t ih =>
    intro acc h
    obtain ⟨k, v⟩ := kv
    have hk : keyIsData k = false := h (k, v) (by simp)
    simp only [entryDataGo, hk, Bool.false_eq_true, if_false]
    exact ih acc fun q hq => h q (by simp [hq])

/-- C10: when the input decodes as a JSON array of objects, the normalizer
returns the concatenation of the extracted `data` fields, where an object
with no `data`-matching member contributes the empty string; in particular
`[{"other":1}]` normalizes to the empty buffer rather than raw passthrough. -/
theorem claim_C10_missing_data_fields :
    (∀ (data : List Nat) (parts : List (List Nat)),
      trimAsciiSpace data ≠ [] → (trimAsciiSpace data).head? = some 91 →
      unmarshalEntryArr data = some parts →
      (parseDebugTermStdinData data).1 = listJoin parts ∧
      (parseDebugTermStdinData data).2 = none) ∧
    (∀ fs : List (List Nat × Jval), (∀ kv ∈ fs, keyIsData kv.1 = false) →
      entryDataGo fs [] = some []) ∧
    (parseDebugTermStdinData (91 :: 123 :: ascii "\"other\":1" ++ [125, 93])).1 = [] := by
  refine ⟨?_, ?_, ?_⟩
  · intro data parts h1 h2 he
    constructor <;> simp [parseDebugTermStdinData, h1, h2, he]
  · intro fs h
    exact entryDataGo_no_match fs [] h
  · decide

/-- Witness for C10 at the concrete input `[{"other":1}]`. -/
theorem claim_C10_missing_data_fields_witness :
    trimAsciiSpace (91 :: 123 :: ascii "\"other\":1" ++ [125, 93]) ≠ [] ∧
    (trimAsciiSpace (91 :: 123 :: ascii "\"other\":1" ++ [125, 93])).head? = some 91 ∧
    unmarshalEntryArr (91 :: 123 :: ascii "\"other\":1" ++ [125, 93]) = some [[]] ∧
    (parseDebugTermStdinData (91 :: 123 :: ascii "\"other\":1" ++ [125, 93])).1 =
      listJoin [[]] :=
  ⟨by decide, by decide, by decide,
   (claim_C10_missing_data_fields.1 (91 :: 123 :: ascii "\"other\":1" ++ [125, 93]) [[]]
     (by decide) (by decide) (by decide)).1⟩

/-! ## Claim C8: the two JSON fragment encodings

The encodings themselves are not part of the source (the repository's tests
only contain concrete encoded strings), so they are modelled from the spec. -/

/-- Valid UTF-8 content, chunked as `utf8.DecodeRune` consumes it, with
explicit fuel (the wrapper passes the length). -/
def validUTF8Go : Nat → List Nat → Bool
  | 0, l => l.isEmpty
  | _ + 1, [] => true
  | fuel + 1, b :: r =>
    if b < 0x80 then validUTF8Go fuel r
    else
      let sz := (utf8Decode (b :: r)).2
      if sz == 1 then false
      else validUTF8Go fuel (r.drop (sz - 1))

/-- A byte list that is wholly valid UTF-8. -/
def validUTF8 (l : List Nat) : Bool := validUTF8Go l.length l

/-- Modelled from the spec: the JSON escaping of one byte inside a JSON
string literal, as both fragment encodings use it — quote and backslash get
backslash escapes, control bytes get `\u00XX`, all other bytes are emitted
verbatim. -/
def jesc (b : Nat) : List Nat :=
  if b == 34 || b == 92 then [92, b]
  else if b < 0x20 then [92, 117, 48, 48] ++ hex2 b
  else [b]

/-- The escaped body of a JSON string literal. -/
def jencStrBody : List Nat → List Nat
  | [] => []
  | b :: r => jesc b ++ jencStrBody r

/-- A JSON string literal. -/
def jencString (s : List Nat) : List Nat := 34 :: jencStrBody s ++ [34]

/-- Comma-separated concatenation. -/
def commaSep : List (List Nat) → List Nat
  | [] => []
  | [x] => x
  | x :: r => x ++ 44 :: commaSep r

/-- Modelled from the spec: the JSON string-array encoding of a fragment
list. -/
def jencStrArr (frags : List (List Nat)) : List Nat :=
  91 :: commaSep (frags.map jencString) ++ [93]

/-- Modelled from the spec: one captured fragment as a JSON object exposing a
single `data` string member. -/
def jencObj (s : List Nat) : List Nat :=
  123 :: (jencString (ascii "data") ++ 58 :: jencString s) ++ [125]

/-- Modelled from the spec: the JSON object-array encoding of a fragment
list. -/
def jencObjArr (frags : List (List Nat)) : List Nat :=
  91 :: commaSep (frags.map jencObj) ++ [93]

theorem jHexVal_lower : ∀ x : Nat, x < 16 → jHexVal (lowerHexDigit x) = some x := by decide

theorem jGetU4_enc (b : Nat) (hb : b < 256) (rest : List Nat) :
    jGetU4 (48 :: 48 :: (hex2 b ++ rest)) = some (b, rest) := by
  have h1 : b / 16 % 16 < 16 := Nat.mod_lt _ (by omega)
  have h2 : b % 16 < 16 := Nat.mod_lt _ (by omega)
  simp only [hex2, List.cons_append, List.nil_append, jGetU4]
  rw [show jHexVal 48 = some 0 from rfl, jHexVal_lower _ h1, jHexVal_lower _ h2]
  simp only [Option.some.injEq, Prod.mk.injEq]
  exact ⟨by omega, trivial⟩

/-- The decode size of a two-byte chunk is stable under any continuation. -/
theorem utf8Decode_two (b b1 : Nat) (t : List Nat) (hb : 0xC2 ≤ b) (hb' : b ≤ 0xDF)
    (h1 : 0x80 ≤ b1) (h1' : b1 ≤ 0xBF) : utf8Decode (b :: b1 :: t) = ((b - 0xC0) * 64 + (b1 - 0x80), 2) := by
  simp only [utf8Decode]
  rw [if_neg (by omega), if_neg (by omega), if_pos (by omega)]
  have hc : (decide (0x80 ≤ b1) && decide (b1 ≤ 0xBF)) = true := by
    simp only [Bool.and_eq_true, decide_eq_true_eq]
    omega
  rw [if_pos hc]

/-- The decode size of a three-byte chunk is stable under any continuation. -/
theorem utf8Decode_three (b b1 b2 : Nat) (t : List Nat) (hb : 0xE0 ≤ b) (hb' : b ≤ 0xEF)
    (h1 : (if b = 0xE0 then 0xA0 else 0x80) ≤ b1) (h1' : b1 ≤ (if b = 0xED then 0x9F else 0xBF))
    (h2 : 0x80 ≤ b2) (h2' : b2 ≤ 0xBF) :
    utf8Decode (b :: b1 :: b2 :: t) =
      ((b - 0xE0) * 4096 + (b1 - 0x80) * 64 + (b2 - 0x80), 3) := by
  simp only [utf8Decode]
  rw [if_neg (by omega), if_neg (by omega), if_neg (by omega), if_pos (by omega)]
  have hc : (decide ((if b = 0xE0 then 0xA0 else 0x80) ≤ b1) &&
      decide (b1 ≤ if b = 0xED then 0x9F else 0xBF) && decide (0x80 ≤ b2) &&
      decide (b2 ≤ 0xBF)) = true := by
    simp only [Bool.and_eq_true, decide_eq_true_eq]
    refine ⟨⟨⟨h1, h1'⟩, by omega⟩, by omega⟩
  rw [if_pos hc]

/-- The decode size of a four-byte chunk is stable under any continuation. -/
theorem utf8Decode_four (b b1 b2 b3 : Nat) (t : List Nat) (hb : 0xF0 ≤ b) (hb' : b ≤ 0xF4)
    (h1 : (if b = 0xF0 then 0x90 else 0x80) ≤ b1) (h1' : b1 ≤ (if b = 0xF4 then 0x8F else 0xBF))
    (h2 : 0x80 ≤ b2) (h2' : b2 ≤ 0xBF) (h3 : 0x80 ≤ b3) (h3' : b3 ≤ 0xBF) :
    utf8Decode (b :: b1 :: b2 :: b3 :: t) =
      ((b - 0xF0) * 262144 + (b1 - 0x80) * 4096 + (b2 - 0x80) * 64 + (b3 - 0x80), 4) := by
  simp only [utf8Decode]
  rw [if_neg (by omega), if_neg (by omega), if_neg (by omega), if_neg (by omega),
    if_pos (by omega)]
  have hc : (decide ((if b = 0xF0 then 0x90 else 0x80) ≤ b1) &&
      decide (b1 ≤ if b = 0xF4 then 0x8F else 0xBF) && decide (0x80 ≤ b2) &&
      decide (b2 ≤ 0xBF) && decide (0x80 ≤ b3) && decide (b3 ≤ 0xBF)) = true := by
    simp only [Bool.and_eq_true, decide_eq_true_eq]
    refine ⟨⟨⟨⟨⟨h1, h1'⟩, by omega⟩, by omega⟩, by omega⟩, by omega⟩
  rw [if_pos hc]

/-- Shape extraction for a valid multi-byte UTF-8 chunk: the continuation
bytes, their ranges, the stability of the decode size under any suffix, and
the validity of the remainder. -/
theorem validUTF8_chunk (vf : Nat) (b : Nat) (r : List Nat) (hb : 0x80 ≤ b)
    (h : validUTF8Go (vf + 1) (b :: r) = true) :
    ∃ c r', r = c ++ r' ∧ c ≠ [] ∧ c.length ≤ 3 ∧ (∀ x ∈ c, 0x80 ≤ x ∧ x ≤ 0xBF) ∧
      (∀ t, (utf8Decode (b :: (c ++ t))).2 = c.length + 1) ∧
      validUTF8Go vf r' = true := by
  simp only [validUTF8Go] at h
  rw [if_neg (by omega)] at h
  by_cases hsz : ((utf8Decode (b :: r)).2 == 1) = true
  · rw [if_pos hsz] at h
    exact absurd h (by simp)
  · rw [if_neg hsz] at h
    simp only [beq_iff_eq] at hsz
    by_cases hc2 : b < 0xC2
    · exfalso
      apply hsz
      simp only [utf8Decode]
      rw [if_neg (by omega), if_pos (by omega)]
    · by_cases hdf : b ≤ 0xDF
      · match r with
        | [] =>
          exfalso
          apply hsz
          simp only [utf8Decode]
          rw [if_neg (by omega), if_neg (by omega), if_pos (by omega)]
        | b1 :: r1 =>
          by_cases hr1 : 0x80 ≤ b1 ∧ b1 ≤ 0xBF
          · refine ⟨[b1], r1, rfl, by simp, by simp, ?_, ?_, ?_⟩
            · intro x hx
              simp only [List.mem_singleton] at hx
              subst hx
              exact hr1
            · intro t
              rw [show ([b1] ++ t : List Nat) = b1 :: t from rfl,
                utf8Decode_two b b1 t (by omega) hdf hr1.1 hr1.2]
              rfl
            · have hdec := utf8Decode_two b b1 r1 (by omega) hdf hr1.1 hr1.2
              rw [hdec] at h
              simpa using h
          · exfalso
            apply hsz
            simp only [utf8Decode]
            rw [if_neg (by omega), if_neg (by omega), if_pos (by omega)]
            have hcond : (decide (0x80 ≤ b1) && decide (b1 ≤ 0xBF)) = false := by
              simp only [Bool.and_eq_false_iff, decide_eq_false_iff_not]
              omega
            simp [hcond]
      · by_cases hef : b ≤ 0xEF
        · match r with
          | [] =>
            exfalso
            apply hsz
            simp only [utf8Decode]
            rw [if_neg (by omega), if_neg (by omega), if_neg (by omega), if_pos (by omega)]
          | [b1] =>
            exfalso
            apply hsz
            simp only [utf8Decode]
            rw [if_neg (by omega), if_neg (by omega), if_neg (by omega), if_pos (by omega)]
          | b1 :: b2 :: r2 =>
            by_cases hr1 : (if b = 0xE0 then 0xA0 else 0x80) ≤ b1 ∧
                (b1 ≤ if b = 0xED then 0x9F else 0xBF) ∧ 0x80 ≤ b2 ∧ b2 ≤ 0xBF
            · obtain ⟨ha, hb1, ha2, hb2⟩ := hr1
              refine ⟨[b1, b2], r2, rfl, by simp, by simp, ?_, ?_, ?_⟩
              · intro x hx
                simp only [List.mem_cons, List.mem_singleton] at hx
                rcases hx with rfl | rfl | h0
                · constructor
                  · have hlo : (0x80 : Nat) ≤ if b = 0xE0 then 0xA0 else 0x80 := by
                      split <;> omega
                    omega
                  · have hhi : (if b = 0xED then (0x9F : Nat) else 0xBF) ≤ 0xBF := by
                      split <;> omega
                    omega
                · exact ⟨ha2, hb2⟩
                · simp at h0
              · intro t
                rw [show ([b1, b2] ++ t : List Nat) = b1 :: b2 :: t from rfl,
                  utf8Decode_three b b1 b2 t (by omega) hef ha hb1 ha2 hb2]
                rfl
              · have hdec := utf8Decode_three b b1 b2 r2 (by omega) hef ha hb1 ha2 hb2
                rw [hdec] at h
                simpa using h
            · exfalso
              apply hsz
              simp only [utf8Decode]
              rw [if_neg (by omega), if_neg (by omega), if_neg (by omega), if_pos (by omega)]
              have hcond : (decide ((if b = 0xE0 then 0xA0 else 0x80) ≤ b1) &&
                  decide (b1 ≤ if b = 0xED then 0x9F else 0xBF) && decide (0x80 ≤ b2) &&
                  decide (b2 ≤ 0xBF)) = false := by
                rw [Bool.eq_false_iff]
                intro hcc
                simp only [Bool.and_eq_true, decide_eq_true_eq] at hcc
                exact hr1 ⟨hcc.1.1.1, hcc.1.1.2, hcc.1.2, hcc.2⟩
              simp [hcond]
        · by_cases hf4 : b ≤ 0xF4
          · match r with
            | [] =>
              exfalso
              apply hsz
              simp only [utf8Decode]
              rw [if_neg (by omega), if_neg (by omega), if_neg (by omega), if_neg (by omega),
                if_pos (by omega)]
            | [b1] =>
              exfalso
              apply hsz
              simp only [utf8Decode]
              rw [if_neg (by omega), if_neg (by omega), if_neg (by omega), if_neg (by omega),
                if_pos (by omega)]
            | [b1, b2] =>
              exfalso
              apply hsz
              simp only [utf8Decode]
              rw [if_neg (by omega), if_neg (by omega), if_neg (by omega), if_neg (by omega),
                if_pos (by omega)]
            | b1 :: b2 :: b3 :: r3 =>
              by_cases hr1 : (if b = 0xF0 then 0x90 else 0x80) ≤ b1 ∧
                  (b1 ≤ if b = 0xF4 then 0x8F else 0xBF) ∧
                  0x80 ≤ b2 ∧ b2 ≤ 0xBF ∧ 0x80 ≤ b3 ∧ b3 ≤ 0xBF
              · obtain ⟨ha, hb1, ha2, hb2, ha3, hb3⟩ := hr1
                refine ⟨[b1, b2, b3], r3, rfl, by simp, by simp, ?_, ?_, ?_⟩
                · intro x hx
                  simp only [List.mem_cons, List.mem_singleton] at hx
                  rcases hx with rfl | rfl | rfl | h0
                  · constructor
                    · have hlo : (0x80 : Nat) ≤ if b = 0xF0 then 0x90 else 0x80 := by
                        split <;> omega
                      omega
                    · have hhi : (if b = 0xF4 then (0x8F : Nat) else 0xBF) ≤ 0xBF := by
                        split <;> omega
                      omega
                  · exact ⟨ha2, hb2⟩
                  · exact ⟨ha3, hb3⟩
                  · simp at h0
                · intro t
                  rw [show ([b1, b2, b3] ++ t : List Nat) = b1 :: b2 :: b3 :: t from rfl,
                    utf8Decode_four b b1 b2 b3 t (by omega) hf4 ha hb1 ha2 hb2 ha3 hb3]
                  rfl
                · have hdec := utf8Decode_four b b1 b2 b3 r3 (by omega) hf4 ha hb1 ha2 hb2 ha3 hb3
                  rw [hdec] at h
                  simpa using h
              · exfalso
                apply hsz
                simp only [utf8Decode]
                rw [if_neg (by omega), if_neg (by omega), if_neg (by omega), if_neg (by omega),
                  if_pos (by omega)]
                have hcond : (decide ((if b = 0xF0 then 0x90 else 0x80) ≤ b1) &&
                    decide (b1 ≤ if b = 0xF4 then 0x8F else 0xBF) && decide (0x80 ≤ b2) &&
                    decide (b2 ≤ 0xBF) && decide (0x80 ≤ b3) && decide (b3 ≤ 0xBF)) = false := by
                  rw [Bool.eq_false_iff]
                  intro hcc
                  simp only [Bool.and_eq_true, decide_eq_true_eq] at hcc
                  exact hr1 ⟨hcc.1.1.1.1.1, hcc.1.1.1.1.2, hcc.1.1.1.2, hcc.1.1.2, hcc.1.2, hcc.2⟩
                simp [hcond]
          · exfalso
            apply hsz
            simp only [utf8Decode]
            rw [if_neg (by omega), if_neg (by omega), if_neg (by omega), if_neg (by omega),
              if_neg (by omega)]

theorem jesc_high (b : Nat) (hb : 0x20 ≤ b) (h34 : b ≠ 34) (h92 : b ≠ 92) : jesc b = [b] := by
  have h : (b == 34 || b == 92) = false := by
    simp only [Bool.or_eq_false_iff, beq_eq_false_iff_ne]
    exact ⟨h34, h92⟩
  simp only [jesc, h, Bool.false_eq_true, if_false]
  rw [if_neg (by omega)]

theorem jencStrBody_append (a b : List Nat) :
    jencStrBody (a ++ b) = jencStrBody a ++ jencStrBody b := by
  induction a with
  | nil => rfl
  | cons x r ih => simp [jencStrBody, ih]

theorem jencStrBody_cont (c : List Nat) (hc : ∀ x ∈ c, 0x80 ≤ x ∧ x ≤ 0xBF) :
    jencStrBody c = c := by
  induction c with
  | nil => rfl
  | cons x r ih =>
    have hx := hc x (by simp)
    rw [jencStrBody, jesc_high x (by omega) (by omega) (by omega),
      ih fun y hy => hc y (by simp [hy])]
    rfl

theorem jstrBodyGo_roundtrip : ∀ (fuel vf : Nat) (s rest : List Nat),
    s.length ≤ vf → validUTF8Go vf s = true →
    (jencStrBody s ++ 34 :: rest).length ≤ fuel →
    jstrBodyGo fuel (jencStrBody s ++ 34 :: rest) = some (s, rest) := by
  intro fuel
  induction fuel with
  | zero =>
    intro vf s rest _ _ hlen
    exfalso
    simp [List.length_append] at hlen
  | succ f ih =>
    intro vf s rest hsv hval hlen
    match s with
    | [] =>
      simp [jencStrBody, jstrBodyGo]
    | b :: r =>
      obtain ⟨vf', rfl⟩ : ∃ vf', vf = vf' + 1 := by
        cases vf with
        | zero => simp at hsv
        | succ k => exact ⟨k, rfl⟩
      by_cases hb80 : b < 0x80
      · have hval' : validUTF8Go vf' r = true := by
          simpa [validUTF8Go, hb80] using hval
        have hsv' : r.length ≤ vf' := by
          simp only [List.length_cons] at hsv
          omega
        by_cases h34 : b = 34
        · subst h34
          have hesc : jesc 34 = [92, 34] := by rfl
          rw [jencStrBody, hesc]
          simp only [List.cons_append, List.append_assoc]
          simp only [jstrBodyGo]
          norm_num [jEscChar]
          rw [ih vf' r rest hsv' hval' (by
            have e : jencStrBody (34 :: r) = [92, 34] ++ jencStrBody r := by
              rw [jencStrBody, hesc]
            rw [e] at hlen
            simp only [List.length_cons, List.length_append] at hlen ⊢
            omega)]
        · by_cases h92 : b = 92
          · subst h92
            have hesc : jesc 92 = [92, 92] := by rfl
            rw [jencStrBody, hesc]
            simp only [List.cons_append, List.append_assoc]
            simp only [jstrBodyGo]
            norm_num [jEscChar]
            rw [ih vf' r rest hsv' hval' (by
              have e : jencStrBody (92 :: r) = [92, 92] ++ jencStrBody r := by
                rw [jencStrBody, hesc]
              rw [e] at hlen
              simp only [List.length_cons, List.length_append] at hlen ⊢
              omega)]
          · by_cases hctl : b < 0x20
            · have hesc : jesc b = [92, 117, 48, 48] ++ hex2 b := by
                have h : (b == 34 || b == 92) = false := by
                  simp only [Bool.or_eq_false_iff, beq_eq_false_iff_ne]
                  exact ⟨h34, h92⟩
                simp only [jesc, h, Bool.false_eq_true, if_false]
                rw [if_pos hctl]
              rw [jencStrBody, hesc]
              simp only [List.cons_append, List.append_assoc, List.nil_append]
              simp only [jstrBodyGo]
              norm_num
              rw [jGetU4_enc b (by omega) (jencStrBody r ++ 34 :: rest)]
              have hsur : (decide (0xD800 ≤ b) && decide (b < 0xE000)) = false := by
                simp only [Bool.and_eq_false_iff, decide_eq_false_iff_not]
                omega
              simp only [hsur, Bool.false_eq_true, if_false]
              rw [ih vf' r rest hsv' hval' (by
                have e : jencStrBody (b :: r) = ([92, 117, 48, 48] ++ hex2 b) ++ jencStrBody r := by
                  rw [jencStrBody, hesc]
                rw [e] at hlen
                simp only [List.length_cons, List.length_append, hex2] at hlen ⊢
                omega)]
              have henc : utf8Encode b = [b] := by
                simp only [utf8Encode]
                rw [if_pos (by omega)]
              simp only [henc, Option.map_some]
              rw [if_neg (show ¬(0xD800 ≤ b ∧ b < 0xE000) by omega)]
              rfl
            · -- plain printable ASCII byte
              have hesc : jesc b = [b] := jesc_high b (by omega) h34 h92
              rw [jencStrBody, hesc]
              simp only [List.cons_append, List.nil_append]
              simp only [jstrBodyGo]
              have c34 : (b == 34) = false := beq_eq_false_iff_ne.mpr h34
              have c92 : (b == 92) = false := beq_eq_false_iff_ne.mpr h92
              rw [c34]
              simp only [Bool.false_eq_true, if_false]
              rw [c92]
              simp only [Bool.false_eq_true, if_false]
              rw [if_neg (by omega), if_pos hb80]
              rw [ih vf' r rest hsv' hval' (by
                have e : jencStrBody (b :: r) = [b] ++ jencStrBody r := by
                  rw [jencStrBody, hesc]
                rw [e] at hlen
                simp only [List.length_cons, List.length_append] at hlen ⊢
                omega)]
              rfl
      · -- multi-byte UTF-8 chunk
        obtain ⟨c, r', rfl, hcne, hc3, hcont, hstable, hval'⟩ :=
          validUTF8_chunk vf' b r (by omega) hval
        have hsv' : r'.length ≤ vf' := by
          simp only [List.length_cons, List.length_append] at hsv
          have : 0 < c.length := List.length_pos.mpr hcne
          omega
        have hescb : jesc b = [b] := jesc_high b (by omega) (by omega) (by omega)
        have hbody : jencStrBody (b :: (c ++ r')) = b :: (c ++ jencStrBody r') := by
          rw [jencStrBody, hescb, jencStrBody_append, jencStrBody_cont c hcont]
          rfl
        rw [hbody]
        simp only [List.cons_append, List.append_assoc]
        simp only [jstrBodyGo]
        have c34 : (b == 34) = false := beq_eq_false_iff_ne.mpr (by omega)
        have c92 : (b == 92) = false := beq_eq_false_iff_ne.mpr (by omega)
        rw [c34]
        simp only [Bool.false_eq_true, if_false]
        rw [c92]
        simp only [Bool.false_eq_true, if_false]
        rw [if_neg (by omega), if_neg (by omega)]
        have hsz := hstable (jencStrBody r' ++ 34 :: rest)
        have hszne : (((utf8Decode (b :: (c ++ (jencStrBody r' ++ 34 :: rest)))).2) == 1) = false := by
          rw [hsz]
          simp only [beq_eq_false_iff_ne]
          have : 0 < c.length := List.length_pos.mpr hcne
          omega
        rw [hszne]
        simp only [Bool.false_eq_true, if_false, hsz]
        have htake : (c ++ (jencStrBody r' ++ 34 :: rest)).take (c.length + 1 - 1) = c := by
          simp
        have hdrop : (c ++ (jencStrBody r' ++ 34 :: rest)).drop (c.length + 1 - 1) =
            jencStrBody r' ++ 34 :: rest := by
          simp
        rw [htake, hdrop]
        rw [ih vf' r' rest hsv' hval' (by
          rw [hbody] at hlen
          simp only [List.length_cons, List.length_append] at hlen ⊢
          have : 0 < c.length := List.length_pos.mpr hcne
          omega)]
        simp

theorem jskipWs_no (b : Nat) (l : List Nat) (h : jIsWs b = false) :
    jskipWs (b :: l) = b :: l := by
  simp [jskipWs, List.dropWhile, h]

theorem jparseVal_string (g : Nat) (f tail : List Nat) (hv : validUTF8 f = true) :
    jparseVal (g + 1) (jencString f ++ tail) = some (.jstr f, tail) := by
  have hshape : jencString f ++ tail = 34 :: (jencStrBody f ++ 34 :: tail) := by
    simp [jencString]
  rw [hshape]
  simp only [jparseVal]
  rw [jskipWs_no 34 _ (by rfl)]
  norm_num
  rw [jstrBodyGo_roundtrip ((jencStrBody f).length + (tail.length + 1)) f.length f tail
    le_rfl hv (by simp)]

/-- One-step unfolding of `jparseElems` at a successor fuel held opaque, so a
rewrite exposes exactly one loop iteration. -/
theorem jparseElems_succ (G : Nat) (l : List Nat) :
    jparseElems (G + 1) l =
      match jparseVal G l with
      | none => none
      | some (v, rest) =>
        match jskipWs rest with
        | b :: r2 =>
          if b == 44 then
            match jparseElems G r2 with
            | some (es, rest2) => some (v :: es, rest2)
            | none => none
          else if b == 93 then some ([v], r2)
          else none
        | [] => none := by
  simp only [jparseElems]

theorem jparseElems_str : ∀ (g : Nat) (frags : List (List Nat)) (rest : List Nat),
    frags ≠ [] → (∀ x ∈ frags, validUTF8 x = true) → frags.length + 1 ≤ g →
    jparseElems g (commaSep (frags.map jencString) ++ 93 :: rest) =
      some (frags.map Jval.jstr, rest) := by
  intro g
  induction g with
  | zero =>
    intro frags rest hne _ hlen
    have : 0 < frags.length := List.length_pos.mpr hne
    omega
  | succ g ih =>
    intro frags rest hne hv hlen
    match frags with
    | [f] =>
      simp only [List.map_cons, List.map_nil, commaSep]
      obtain ⟨g', rfl⟩ : ∃ g', g = g' + 1 := ⟨g - 1, by
        simp only [List.length_singleton] at hlen
        omega⟩
      simp only [jparseElems]
      rw [show jencString f ++ 93 :: rest = jencString f ++ (93 :: rest) from rfl,
        jparseVal_string g' f (93 :: rest) (hv f (by simp))]
      dsimp only
      rw [jskipWs_no 93 _ (by rfl)]
      norm_num
    | f :: f2 :: fr =>
      obtain ⟨g', rfl⟩ : ∃ g', g = g' + 1 := ⟨g - 1, by
        simp only [List.length_cons] at hlen
        omega⟩
      simp only [List.map_cons, commaSep]
      rw [show (jencString f ++ 44 :: commaSep (jencString f2 :: fr.map jencString)) ++
          93 :: rest =
          jencString f ++ (44 :: (commaSep (jencString f2 :: fr.map jencString) ++
            93 :: rest)) by simp]
      rw [jparseElems_succ]
      rw [jparseVal_string g' f _ (hv f (by simp))]
      dsimp only
      rw [jskipWs_no 44 _ (by rfl)]
      norm_num
      rw [show (jencString f2 :: fr.map jencString) = (f2 :: fr).map jencString by simp]
      rw [ih (f2 :: fr) rest (by simp) (fun x hx => hv x (by simp [hx])) (by
        simp only [List.length_cons] at hlen ⊢
        omega)]
      rfl

theorem jparseVal_obj (g : Nat) (f tail : List Nat) (hv : validUTF8 f = true) :
    jparseVal (g + 3) (jencObj f ++ tail) =
      some (.jobj [(ascii "data", .jstr f)], tail) := by
  have hshape : jencObj f ++ tail =
      123 :: (34 :: (jencStrBody (ascii "data") ++
        34 :: (58 :: (jencString f ++ 125 :: tail)))) := by
    simp [jencObj, jencString]
  rw [hshape]
  rw [show g + 3 = (g + 2) + 1 from rfl]
  simp only [jparseVal]
  rw [jskipWs_no 123 _ (by rfl)]
  norm_num
  rw [jskipWs_no 34 _ (by rfl)]
  norm_num
  rw [show g + 2 = (g + 1) + 1 from rfl]
  simp only [jparseFields]
  rw [jskipWs_no 34 _ (by rfl)]
  norm_num
  rw [jstrBodyGo_roundtrip _ (ascii "data").length (ascii "data")
    (58 :: (jencString f ++ 125 :: tail)) le_rfl (by decide) (by simp)]
  dsimp only
  rw [jskipWs_no 58 _ (by rfl)]
  norm_num
  rw [jparseVal_string g f (125 :: tail) hv]
  dsimp only
  rw [jskipWs_no 125 _ (by rfl)]
  norm_num

theorem jparseElems_obj : ∀ (g : Nat) (frags : List (List Nat)) (rest : List Nat),
    frags ≠ [] → (∀ x ∈ frags, validUTF8 x = true) → frags.length + 3 ≤ g →
    jparseElems g (commaSep (frags.map jencObj) ++ 93 :: rest) =
      some (frags.map (fun f => Jval.jobj [(ascii "data", .jstr f)]), rest) := by
  intro g
  induction g with
  | zero =>
    intro frags rest hne _ hlen
    have : 0 < frags.length := List.length_pos.mpr hne
    omega
  | succ g ih =>
    intro frags rest hne hv hlen
    match frags with
    | [f] =>
      simp only [List.map_cons, List.map_nil, commaSep]
      obtain ⟨g', rfl⟩ : ∃ g', g = g' + 3 := ⟨g - 3, by
        simp only [List.length_singleton] at hlen
        omega⟩
      simp only [jparseElems]
      rw [show jencObj f ++ 93 :: rest = jencObj f ++ (93 :: rest) from rfl,
        jparseVal_obj g' f (93 :: rest) (hv f (by simp))]
      dsimp only
      rw [jskipWs_no 93 _ (by rfl)]
      norm_num
    | f :: f2 :: fr =>
      obtain ⟨g', rfl⟩ : ∃ g', g = g' + 3 := ⟨g - 3, by
        simp only [List.length_cons] at hlen
        omega⟩
      simp only [List.map_cons, commaSep]
      rw [show (jencObj f ++ 44 :: commaSep (jencObj f2 :: fr.map jencObj)) ++ 93 :: rest =
          jencObj f ++ (44 :: (commaSep (jencObj f2 :: fr.map jencObj) ++ 93 :: rest)) by
        simp]
      rw [show g' + 3 + 1 = (g' + 3) + 1 from rfl]
      rw [jparseElems_succ]
      rw [jparseVal_obj g' f _ (hv f (by simp))]
      dsimp only
      rw [jskipWs_no 44 _ (by rfl)]
      norm_num
      rw [show (jencObj f2 :: fr.map jencObj) = (f2 :: fr).map jencObj by simp]
      rw [ih (f2 :: fr) rest (by simp) (fun x hx => hv x (by simp [hx])) (by
        simp only [List.length_cons] at hlen ⊢
        omega)]
      rfl

theorem commaSep_len_ge : ∀ (xs : List (List Nat)), (∀ x ∈ xs, 2 ≤ x.length) →
    xs.length ≤ (commaSep xs).length
  | [], _ => by simp
  | [x], h => by
    have := h x (by simp)
    simp only [commaSep, List.length_singleton]
    omega
  | x :: y :: l, h => by
    have hx := h x (by simp)
    have ih := commaSep_len_ge (y :: l) fun z hz => h z (by simp [hz])
    simp only [commaSep, List.length_append, List.length_cons] at ih ⊢
    omega

theorem jencString_len (f : List Nat) : 2 ≤ (jencString f).length := by
  simp [jencString]

theorem jencObj_len (f : List Nat) : 2 ≤ (jencObj f).length := by
  simp only [jencObj, List.length_cons, List.length_append]
  omega

/-- One-step unfolding of `jparseVal` at a successor fuel held opaque. -/
theorem jparseVal_succ (G : Nat) (l : List Nat) :
    jparseVal (G + 1) l =
      match jskipWs l with
      | [] => none
      | b :: r =>
        if b == 91 then
          match jskipWs r with
          | b2 :: r2 =>
            if b2 == 93 then some (.jarr [], r2)
            else
              match jparseElems G (b2 :: r2) with
              | some (es, rest) => some (.jarr es, rest)
              | none => none
          | [] => none
        else if b == 123 then
          match jskipWs r with
          | b2 :: r2 =>
            if b2 == 125 then some (.jobj [], r2)
            else
              match jparseFields G (b2 :: r2) with
              | some (fs, rest) => some (.jobj fs, rest)
              | none => none
          | [] => none
        else if b == 34 then
          match jstrBodyGo r.length r with
          | some (s, rest) => some (.jstr s, rest)
          | none => none
        else if b == 116 then
          match jexpect r (ascii "rue") with
          | some rest => some (.jbool true, rest)
          | none => none
        else if b == 102 then
          match jexpect r (ascii "alse") with
          | some rest => some (.jbool false, rest)
          | none => none
        else if b == 110 then
          match jexpect r (ascii "ull") with
          | some rest => some (.jnull, rest)
          | none => none
        else
          match jparseNumAll (b :: r) with
          | some rest => some (.jnum, rest)
          | none => none := by
  simp only [jparseVal]

theorem jsonUnmarshalTop_strArr (frags : List (List Nat))
    (hv : ∀ f ∈ frags, validUTF8 f = true) :
    jsonUnmarshalTop (jencStrArr frags) = some (.jarr (frags.map Jval.jstr)) := by
  match frags with
  | [] => rfl
  | f :: fr =>
    unfold jsonUnmarshalTop
    have hshape : jencStrArr (f :: fr) =
        91 :: (commaSep ((f :: fr).map jencString) ++ 93 :: []) := by
      simp [jencStrArr]
    rw [hshape]
    rw [show (91 :: (commaSep ((f :: fr).map jencString) ++ 93 :: [])).length + 2 =
        ((91 :: (commaSep ((f :: fr).map jencString) ++ 93 :: [])).length + 1) + 1 from rfl]
    rw [jparseVal_succ]
    rw [jskipWs_no 91 _ (by rfl)]
    dsimp only
    rw [if_pos (show ((91 : Nat) == 91) = true from rfl)]
    obtain ⟨R, hR⟩ : ∃ R, commaSep ((f :: fr).map jencString) = 34 :: R := by
      match fr with
      | [] => exact ⟨jencStrBody f ++ [34], by simp [commaSep, jencString]⟩
      | f2 :: fr2 =>
        exact ⟨(jencStrBody f ++ [34]) ++ 44 :: commaSep ((f2 :: fr2).map jencString),
          by simp [commaSep, jencString]⟩
    rw [hR]
    simp only [List.cons_append]
    rw [jskipWs_no 34 _ (by rfl)]
    dsimp only
    rw [if_neg (by decide)]
    rw [show (34 :: (R ++ 93 :: ([] : List Nat))) = (34 :: R) ++ 93 :: [] by simp, ← hR]
    have hbound : (f :: fr).length + 1 ≤
        (91 :: (commaSep ((f :: fr).map jencString) ++ 93 :: [])).length + 1 := by
      have hcs := commaSep_len_ge ((f :: fr).map jencString) (by
        intro x hx
        obtain ⟨y, _, rfl⟩ := List.mem_map.mp hx
        exact jencString_len y)
      simp only [List.length_map, List.length_cons] at hcs
      simp only [List.length_cons, List.length_append, List.length_nil]
      omega
    rw [jparseElems_str _ (f :: fr) [] (by simp) hv hbound]
    rfl

theorem jsonUnmarshalTop_objArr (frags : List (List Nat))
    (hv : ∀ f ∈ frags, validUTF8 f = true) :
    jsonUnmarshalTop (jencObjArr frags) =
      some (.jarr (frags.map (fun f => Jval.jobj [(ascii "data", .jstr f)]))) := by
  match frags with
  | [] => rfl
  | f :: fr =>
    unfold jsonUnmarshalTop
    have hshape : jencObjArr (f :: fr) =
        91 :: (commaSep ((f :: fr).map jencObj) ++ 93 :: []) := by
      simp [jencObjArr]
    rw [hshape]
    rw [show (91 :: (commaSep ((f :: fr).map jencObj) ++ 93 :: [])).length + 2 =
        ((91 :: (commaSep ((f :: fr).map jencObj) ++ 93 :: [])).length + 1) + 1 from rfl]
    rw [jparseVal_succ]
    rw [jskipWs_no 91 _ (by rfl)]
    dsimp only
    rw [if_pos (show ((91 : Nat) == 91) = true from rfl)]
    obtain ⟨R, hR⟩ : ∃ R, commaSep ((f :: fr).map jencObj) = 123 :: R := by
      match fr with
      | [] =>
        exact ⟨(jencString (ascii "data") ++ 58 :: jencString f) ++ [125],
          by simp [commaSep, jencObj]⟩
      | f2 :: fr2 =>
        exact ⟨((jencString (ascii "data") ++ 58 :: jencString f) ++ [125]) ++
          44 :: commaSep ((f2 :: fr2).map jencObj), by simp [commaSep, jencObj]⟩
    rw [hR]
    simp only [List.cons_append]
    rw [jskipWs_no 123 _ (by rfl)]
    dsimp only
    rw [if_neg (by decide)]
    rw [show (123 :: (R ++ 93 :: ([] : List Nat))) = (123 :: R) ++ 93 :: [] by simp, ← hR]
    have hbound : (f :: fr).length + 3 ≤
        (91 :: (commaSep ((f :: fr).map jencObj) ++ 93 :: [])).length + 1 := by
      have hcs := commaSep_len_ge ((f :: fr).map jencObj) (by
        intro x hx
        obtain ⟨y, _, rfl⟩ := List.mem_map.mp hx
        exact jencObj_len y)
      simp only [List.length_map, List.length_cons] at hcs
      simp only [List.length_cons, List.length_append, List.length_nil]
      omega
    rw [jparseElems_obj _ (f :: fr) [] (by simp) hv hbound]
    rfl

theorem jdecodeArr_jstr : ∀ frags : List (List Nat),
    jdecodeArr jstrElem (frags.map Jval.jstr) = some frags
  | [] => rfl
  | f :: fr => by
    simp [jdecodeArr, jstrElem, jdecodeArr_jstr fr]

theorem jdecodeArr_entry : ∀ frags : List (List Nat),
    jdecodeArr jentryElem
      (frags.map (fun f => Jval.jobj [(ascii "data", Jval.jstr f)])) = some frags
  | [] => rfl
  | f :: fr => by
    have h1 : jentryElem (Jval.jobj [(ascii "data", Jval.jstr f)]) = some f := rfl
    simp [jdecodeArr, h1, jdecodeArr_entry fr]

theorem unmarshalStrArr_enc (frags : List (List Nat))
    (hv : ∀ f ∈ frags, validUTF8 f = true) :
    unmarshalStrArr (jencStrArr frags) = some frags := by
  unfold unmarshalStrArr
  rw [jsonUnmarshalTop_strArr frags hv]
  exact jdecodeArr_jstr frags

theorem unmarshalEntryArr_strArr_none (f : List Nat) (fr : List (List Nat))
    (hv : ∀ x ∈ f :: fr, validUTF8 x = true) :
    unmarshalEntryArr (jencStrArr (f :: fr)) = none := by
  unfold unmarshalEntryArr
  rw [jsonUnmarshalTop_strArr (f :: fr) hv]
  simp [jdecodeArr, jentryElem]

theorem unmarshalEntryArr_enc (frags : List (List Nat))
    (hv : ∀ f ∈ frags, validUTF8 f = true) :
    unmarshalEntryArr (jencObjArr frags) = some frags := by
  unfold unmarshalEntryArr
  rw [jsonUnmarshalTop_objArr frags hv]
  exact jdecodeArr_entry frags

theorem trimAscii_arr (X : List Nat) :
    trimAsciiSpace ((91 :: X) ++ [93]) = (91 :: X) ++ [93] := by
  unfold trimAsciiSpace
  have h1 : ((91 :: X) ++ [93]).dropWhile asciiWsByte = (91 :: X) ++ [93] := by
    simp only [List.cons_append, List.dropWhile_cons]
    norm_num [asciiWsByte]
  rw [h1]
  have h2 : ((91 :: X) ++ [93]).reverse = 93 :: (X.reverse ++ [91]) := by
    simp [List.reverse_append, List.reverse_cons]
  rw [h2]
  rw [List.dropWhile_cons]
  norm_num [asciiWsByte]

/-- C8: for any fragment list (of valid UTF-8 fragment strings), the
normalizer applied to the JSON string-array encoding and to the JSON
object-array encoding returns the same byte buffer — the concatenation of the
fragments in array order — and no error. -/
theorem claim_C8_encodings_agree (frags : List (List Nat))
    (hv : ∀ f ∈ frags, validUTF8 f = true) :
    parseDebugTermStdinData (jencStrArr frags) = (listJoin frags, none) ∧
    parseDebugTermStdinData (jencObjArr frags) = (listJoin frags, none) := by
  constructor
  · match frags with
    | [] => rfl
    | f :: fr =>
      have hshape : jencStrArr (f :: fr) =
          (91 :: commaSep ((f :: fr).map jencString)) ++ [93] := by
        simp [jencStrArr]
      have htrim : trimAsciiSpace (jencStrArr (f :: fr)) = jencStrArr (f :: fr) := by
        rw [hshape, trimAscii_arr]
      have hne : jencStrArr (f :: fr) ≠ [] := by
        rw [hshape]; simp
      have hhead : (jencStrArr (f :: fr)).head? = some 91 := by
        rw [hshape]; rfl
      simp only [parseDebugTermStdinData, htrim, hne, if_false, hhead, if_pos rfl]
      rw [unmarshalEntryArr_strArr_none f fr hv, unmarshalStrArr_enc (f :: fr) hv]
      simp
  · match frags with
    | [] => rfl
    | f :: fr =>
      have hshape : jencObjArr (f :: fr) =
          (91 :: commaSep ((f :: fr).map jencObj)) ++ [93] := by
        simp [jencObjArr]
      have htrim : trimAsciiSpace (jencObjArr (f :: fr)) = jencObjArr (f :: fr) := by
        rw [hshape, trimAscii_arr]
      have hne : jencObjArr (f :: fr) ≠ [] := by
        rw [hshape]; simp
      have hhead : (jencObjArr (f :: fr)).head? = some 91 := by
        rw [hshape]; rfl
      simp only [parseDebugTermStdinData, htrim, hne, if_false, hhead, if_pos rfl]
      rw [unmarshalEntryArr_enc (f :: fr) hv]
      simp

/-- Witness for C8 at the specification's example fragments
`["abc", "\x1b[31mred", "\x1b[0m"]`. -/
theorem claim_C8_encodings_agree_witness :
    (∀ f ∈ [ascii "abc", ascii "\x1b[31mred", ascii "\x1b[0m"], validUTF8 f = true) ∧
    (parseDebugTermStdinData
        (jencStrArr [ascii "abc", ascii "\x1b[31mred", ascii "\x1b[0m"])).1 =
      ascii "abc\x1b[31mred\x1b[0m" ∧
    (parseDebugTermStdinData
        (jencObjArr [ascii "abc", ascii "\x1b[31mred", ascii "\x1b[0m"])).1 =
      ascii "abc\x1b[31mred\x1b[0m" := by
  have h := claim_C8_encodings_agree
    [ascii "abc", ascii "\x1b[31mred", ascii "\x1b[0m"] (by decide)
  refine ⟨by decide, ?_, ?_⟩
  · rw [h.1]
    decide
  · rw [h.2]
    decide

end DebugTerm
